import Mathlib

/-!
# Bounded-concurrency batch executor (`infra/pkg/cc_task.go`)

A shallow embedding of `ConcurrentTask`: its option-based constructor, the three
pipeline stages (`idWalker`, `testFuncRunner` with `executeTask`, `resultCollector`)
as an interleaving machine driven by an explicit schedule, and `Run`, the retry loop
around the pipeline.

Conventions.
* Go `int` and `time.Duration` are `Int`; durations are in nanoseconds. The one
  arithmetic operation of the source, `ct.maxConcurrency*10`, wraps around as a 64-bit
  `int` does (`wrapInt`), and a `make` with a negative size panics: `Run` then does not
  return (`makePanics`). The allocation limit of the runtime is not modelled.
* An identifier (`any` in the source) is a value of a type `ι` with decidable equality.
* A Go `error` is `Option GoError`; `none` is `nil`.
* Goroutines are interleaved by a schedule, a list of `Action`s; every `select`
  and every channel operation of the source is one action. A `select` with several
  ready cases may take any of them, so each case is an action of its own.
* Time is not measured. The overall deadline (`taskTimeout`) is the action
  `Action.deadline`, which may come at any point; whether a call of the work function
  returns within `funcTimeout` is part of what the call does (`WorkOutcome`).
* `retry.Do` belongs to the library `github.com/avast/retry-go`; `retryDo` is its loop
  for the options `Run` passes. `Attempts` is the number of executions of the retried
  function, the first one included.
* When `resultCollector` returns on the cancellation, goroutines of the pass may still
  be running; they are followed to the end of the schedule of that pass and no further.
-/

namespace CCTask

open List

/-! ## Configuration -/

/-- The `ConcurrentTask` struct. -/
structure ConcurrentTask where
  maxConcurrency : Int
  maxRetries : Int
  taskTimeout : Int
  funcTimeout : Int
  deriving DecidableEq, Repr

/-- Go `time.Second` in nanoseconds. -/
def second : Int := 1000000000

/-- Go `time.Minute` in nanoseconds. -/
def minute : Int := 60 * second

/-- The type `CTaskOptionFunc`: an update of the struct behind the pointer. -/
abbrev CTaskOptionFunc := ConcurrentTask → ConcurrentTask

/-- `WithMaxConcurrency(n)`. -/
def WithMaxConcurrency (n : Int) : CTaskOptionFunc := fun ct =>
  if n > 0 then { ct with maxConcurrency := n } else ct

/-- `WithMaxRetries(n)`. -/
def WithMaxRetries (n : Int) : CTaskOptionFunc := fun ct =>
  if n > 0 then { ct with maxRetries := n } else ct

/-- `WithTaskTimeout(d)`. -/
def WithTaskTimeout (d : Int) : CTaskOptionFunc := fun ct =>
  if d > 0 then { ct with taskTimeout := d } else ct

/-- `WithTestFuncTimeout(d)`. -/
def WithTestFuncTimeout (d : Int) : CTaskOptionFunc := fun ct =>
  if d > 0 then { ct with funcTimeout := d } else ct

/-- The four option constructors of the package, as data, so that a list of options
can be inspected. -/
inductive Opt where
  | maxConcurrency (n : Int)
  | maxRetries (n : Int)
  | taskTimeout (d : Int)
  | testFuncTimeout (d : Int)
  deriving DecidableEq, Repr

/-- The option function an `Opt` stands for. -/
def Opt.apply : Opt → CTaskOptionFunc
  | .maxConcurrency n => WithMaxConcurrency n
  | .maxRetries n => WithMaxRetries n
  | .taskTimeout d => WithTaskTimeout d
  | .testFuncTimeout d => WithTestFuncTimeout d

/-- The defaults of `NewConcurrentTask`; `numCPU` is `runtime.NumCPU()`. -/
def defaultTask (numCPU : Int) : ConcurrentTask :=
  { maxConcurrency := numCPU
    maxRetries := 3
    taskTimeout := 10 * minute
    funcTimeout := 30 * second }

/-- `NewConcurrentTask(opts...)`: the options are applied to the defaults in order. -/
def NewConcurrentTask (numCPU : Int) (opts : List Opt) : ConcurrentTask :=
  opts.foldl (fun ct opt => opt.apply ct) (defaultTask numCPU)

/-- All four fields are positive. -/
def ConcurrentTask.Valid (ct : ConcurrentTask) : Prop :=
  0 < ct.maxConcurrency ∧ 0 < ct.maxRetries ∧ 0 < ct.taskTimeout ∧ 0 < ct.funcTimeout

instance (ct : ConcurrentTask) : Decidable ct.Valid := by
  unfold ConcurrentTask.Valid; infer_instance

/-- The last positive argument among the given overrides of one field. -/
def lastPositive (xs : List Int) : Option Int :=
  (xs.filter (fun n => decide (0 < n))).getLast?

/-- The arguments of the `WithMaxConcurrency` options of a list, in order. -/
def maxConcurrencyArgs : List Opt → List Int
  | [] => []
  | .maxConcurrency n :: rest => n :: maxConcurrencyArgs rest
  | _ :: rest => maxConcurrencyArgs rest

/-- The arguments of the `WithMaxRetries` options of a list, in order. -/
def maxRetriesArgs : List Opt → List Int
  | [] => []
  | .maxRetries n :: rest => n :: maxRetriesArgs rest
  | _ :: rest => maxRetriesArgs rest

/-- The arguments of the `WithTaskTimeout` options of a list, in order. -/
def taskTimeoutArgs : List Opt → List Int
  | [] => []
  | .taskTimeout n :: rest => n :: taskTimeoutArgs rest
  | _ :: rest => taskTimeoutArgs rest

/-- The arguments of the `WithTestFuncTimeout` options of a list, in order. -/
def testFuncTimeoutArgs : List Opt → List Int
  | [] => []
  | .testFuncTimeout n :: rest => n :: testFuncTimeoutArgs rest
  | _ :: rest => testFuncTimeoutArgs rest

/-! ## Pipeline data -/

/-- A non-nil Go `error` value. -/
inductive GoError where
  /-- The value `context.DeadlineExceeded`. -/
  | deadlineExceeded
  /-- The value `context.Canceled`. -/
  | canceled
  /-- An error returned by the work function. -/
  | work (code : Nat)
  deriving DecidableEq, Repr

/-- The `result` struct. -/
structure result (ι : Type) where
  id : ι
  err : Option GoError
  deriving DecidableEq, Repr

/-- What one call of the work function does, as far as `executeTask` can see. -/
inductive WorkOutcome where
  /-- The call returns `err` before the per-item deadline (`funcTimeout`). -/
  | returns (err : Option GoError)
  /-- The call has not returned when the per-item deadline fires. -/
  | hangs
  deriving DecidableEq, Repr

/-- The call makes its item fail: it returns a non-nil error, or it does not return
before the per-item deadline. -/
def WorkOutcome.failed : WorkOutcome → Bool
  | .returns err => err.isSome
  | .hangs => true

/-- The type `testFunc`. The work function is effectful: `f calls id` is what its
call on `id` does when `calls` are the identifiers of the calls started before it, in
start order, over the whole run. -/
abbrev testFunc (ι : Type) := List ι → ι → WorkOutcome

/-- The value of `ctx.Err()` in `executeTask` once `ctx.Done()` is closed. Both the
per-item context and its parent are deadline contexts, and their cancel functions are
only called after the select, so the error is `context.DeadlineExceeded`. -/
def ctxErr : GoError := .deadlineExceeded

/-- `executeTask(ctx, id, f)`: it derives the per-item context, starts `f(ctx, id)` in
a goroutine of its own and returns from its select. `calls` are the calls of `f`
started before this one. `cancelWins` says that the cancellation of the run closes
`ctx.Done()` before the call has returned and the select takes that case; otherwise the
select takes `err := <-resultCh` if the call returns within `funcTimeout`, and
`<-ctx.Done()` at the per-item deadline if it does not. The second component says that
the call of `f` is still running when `executeTask` returns. -/
def executeTask {ι : Type} (f : testFunc ι) (calls : List ι) (id : ι) (cancelWins : Bool) :
    result ι × Bool :=
  match cancelWins, f calls id with
  | false, .returns err => ({ id := id, err := err }, false)
  | false, .hangs => ({ id := id, err := some ctxErr }, true)
  | true, _ => ({ id := id, err := some ctxErr }, true)

/-- What `resultCollector` meets in one iteration of its loop. -/
inductive CollectorEvent (ι : Type) where
  /-- The case `res, ok := <-in` with `ok`. -/
  | recv (res : result ι)
  /-- The case `res, ok := <-in` with `!ok`: the stream is closed and drained. -/
  | closed
  /-- The case `<-ctx.Done()`. -/
  | ctxDone
  deriving DecidableEq, Repr

/-- One iteration of the loop of `resultCollector`: the new `failed` slice and whether
the function returns it. -/
def collectorStep {ι : Type} (failed : List ι) : CollectorEvent ι → List ι × Bool
  | .recv res => (if res.err.isSome then failed ++ [res.id] else failed, false)
  | .closed => (failed, true)
  | .ctxDone => (failed, true)

/-- The loop of `resultCollector` over the events it meets; `none` when the events end
before the function returns (it is still blocked in its select). -/
def collectorLoop {ι : Type} (failed : List ι) : List (CollectorEvent ι) → Option (List ι)
  | [] => none
  | ev :: evs =>
    match collectorStep failed ev with
    | (failed', true) => some failed'
    | (failed', false) => collectorLoop failed' evs

/-- `resultCollector`, from the events it meets: `failed` starts as the nil slice. -/
def resultCollector {ι : Type} (events : List (CollectorEvent ι)) : Option (List ι) :=
  collectorLoop [] events

/-- The identifiers of the outcomes that carry a non-nil error, in order. -/
def failedIds {ι : Type} (outcomes : List (result ι)) : List ι :=
  (outcomes.filter (fun res => res.err.isSome)).map (fun res => res.id)

/-! ## One pass of the pipeline as an interleaving machine -/

/-- A worker goroutine of `testFuncRunner`. -/
inductive Worker (ι : Type) where
  /-- At `for id := range in`. -/
  | idle
  /-- Inside `executeTask` for `id`, at its select; `calls` are the calls of `f` started
  before the one this `executeTask` started. -/
  | running (id : ι) (calls : List ι)
  /-- At the select of the loop body, holding the result of `executeTask`. -/
  | sending (res : result ι)
  /-- Returned (`wg.Done()` has run). -/
  | exited
  deriving DecidableEq, Repr

/-- The identifier a worker holds. -/
def Worker.ids {ι : Type} : Worker ι → List ι
  | .running id _ => [id]
  | .sending res => [res.id]
  | _ => []

/-- The worker is inside `executeTask`, waiting for a call of `f`. -/
def Worker.isRunning {ι : Type} : Worker ι → Bool
  | .running _ _ => true
  | _ => false

/-- The worker goroutine has returned. -/
def Worker.isExited {ι : Type} : Worker ι → Bool
  | .exited => true
  | _ => false

/-- The identifiers held by the workers. -/
def heldIds {ι : Type} : List (Worker ι) → List ι
  | [] => []
  | w :: ws => w.ids ++ heldIds ws

/-- The state of one pass: the goroutines of the three stages and their channels. -/
structure PassState (ι : Type) where
  /-- The identifiers `idWalker` has not sent yet. -/
  pending : List ι
  /-- The buffer of the channel `idWalker` returns, oldest first. -/
  stage1 : List ι
  /-- The goroutine of `idWalker` has returned and closed its channel. -/
  stage1Closed : Bool
  /-- The worker goroutines of `testFuncRunner`. -/
  workers : List (Worker ι)
  /-- The buffer of the channel `testFuncRunner` returns, oldest first. -/
  stage2 : List (result ι)
  /-- The channel of `testFuncRunner` is closed (`wg.Wait()` returned). -/
  stage2Closed : Bool
  /-- The slice `failed` of `resultCollector`. -/
  failed : List ι
  /-- The function `resultCollector` has returned `failed`. -/
  returned : Bool
  /-- The channel `ctx.Done()` of the run is closed. -/
  cancelled : Bool
  /-- The calls of `f` started during this pass, in start order. -/
  invoked : List ι
  /-- The calls of `f` that are still running although their `executeTask` returned. -/
  abandoned : Nat
  deriving DecidableEq, Repr

/-- The number of calls of `f` that have started and not returned. -/
def PassState.inFlight {ι : Type} (s : PassState ι) : Nat :=
  s.workers.countP Worker.isRunning + s.abandoned

/-- One step of one goroutine. -/
inductive Action where
  /-- The overall deadline (`taskTimeout`) fires: `ctx.Done()` is closed. -/
  | deadline
  /-- The select of `idWalker` takes `out <- id`. -/
  | walkerSend
  /-- The select of `idWalker` takes `<-ctx.Done()`: return, `close(out)`. -/
  | walkerCancel
  /-- The loop of `idWalker` is over: return, `close(out)`. -/
  | walkerReturn
  /-- Worker `i` receives an identifier from `in` and `executeTask` starts `f`. -/
  | workerRecv (i : Nat)
  /-- Worker `i` finds `in` closed and drained and returns. -/
  | workerExit (i : Nat)
  /-- The select of `executeTask` in worker `i` fires on `resultCh` if the call returns
  in time, and on the per-item deadline otherwise (`cancelWins = false`). -/
  | taskDone (i : Nat)
  /-- The select of `executeTask` in worker `i` takes `<-ctx.Done()` because the run
  is cancelled (`cancelWins = true`). -/
  | taskCancel (i : Nat)
  /-- The select of worker `i` takes `out <- result`. -/
  | workerSend (i : Nat)
  /-- The select of worker `i` takes `<-ctx.Done()`: return. -/
  | workerCancel (i : Nat)
  /-- A call of `f` that `executeTask` no longer waits for returns. -/
  | invocationReturn
  /-- The call `wg.Wait()` returns and `close(out)` runs. -/
  | closerClose
  /-- The select of `resultCollector` receives a result. -/
  | collectorRecv
  /-- The select of `resultCollector` finds its input closed and drained. -/
  | collectorClosed
  /-- The select of `resultCollector` takes `<-ctx.Done()`. -/
  | collectorCancel
  deriving DecidableEq, Repr

/-- Arithmetic on Go `int` (64 bits) wraps around in two's complement. -/
def wrapInt (x : Int) : Int :=
  (x + 9223372036854775808) % 18446744073709551616 - 9223372036854775808

/-- The number of workers `testFuncRunner` starts, and the capacity of its channel. -/
def poolSize (ct : ConcurrentTask) : Nat := ct.maxConcurrency.toNat

/-- The size `idWalker` hands to `make`: `ct.maxConcurrency*10`, computed in `int`. -/
def stage1Size (ct : ConcurrentTask) : Int := wrapInt (ct.maxConcurrency * 10)

/-- The capacity of the channel of `idWalker`. -/
def stage1Cap (ct : ConcurrentTask) : Nat := (stage1Size ct).toNat

/-- A `make` of the pipeline panics: `make(chan any, ct.maxConcurrency*10)` in
`idWalker` or `make(chan result, ct.maxConcurrency)` in `testFuncRunner` is handed a
negative size. The allocation limit of the runtime is not modelled: memory is taken to
suffice for every non-negative size. -/
def makePanics (ct : ConcurrentTask) : Prop :=
  stage1Size ct < 0 ∨ ct.maxConcurrency < 0

instance (ct : ConcurrentTask) : Decidable (makePanics ct) := by
  unfold makePanics; infer_instance

/-- The goroutine of `idWalker`: its select between `out <- id` and `<-ctx.Done()`,
and its return, which closes the channel. `none` when it cannot take the action. -/
def idWalker {ι : Type} [DecidableEq ι] (ct : ConcurrentTask) (s : PassState ι) :
    Action → Option (PassState ι)
  | .walkerSend =>
    match s.pending with
    | id :: rest =>
      if s.stage1Closed = false ∧ s.stage1.length < stage1Cap ct then
        some { s with pending := rest, stage1 := s.stage1 ++ [id] }
      else none
    | [] => none
  | .walkerCancel =>
    if s.stage1Closed = false ∧ s.pending ≠ [] ∧ s.cancelled = true then
      some { s with stage1Closed := true }
    else none
  | .walkerReturn =>
    if s.stage1Closed = false ∧ s.pending = [] then
      some { s with stage1Closed := true }
    else none
  | _ => none

/-- The goroutines of `testFuncRunner`: the loop of each worker over `in`, with the
call of `executeTask` and the select between `out <- result` and `<-ctx.Done()`, and
the goroutine that closes `out` after `wg.Wait()`. `prior` are the calls of `f`
started in earlier passes. `none` when the action cannot be taken. -/
def testFuncRunner {ι : Type} [DecidableEq ι] (ct : ConcurrentTask) (f : testFunc ι) (prior : List ι)
    (s : PassState ι) : Action → Option (PassState ι)
  | .workerRecv i =>
    match s.workers[i]?, s.stage1 with
    | some .idle, id :: rest =>
      some { s with
        stage1 := rest
        workers := s.workers.set i (.running id (prior ++ s.invoked))
        invoked := s.invoked ++ [id] }
    | _, _ => none
  | .workerExit i =>
    match s.workers[i]? with
    | some .idle =>
      if s.stage1 = [] ∧ s.stage1Closed = true then
        some { s with workers := s.workers.set i .exited }
      else none
    | _ => none
  | .taskDone i =>
    match s.workers[i]? with
    | some (.running id calls) =>
      some { s with
        workers := s.workers.set i (.sending (executeTask f calls id false).1)
        abandoned := s.abandoned + (if (executeTask f calls id false).2 then 1 else 0) }
    | _ => none
  | .taskCancel i =>
    match s.workers[i]? with
    | some (.running id calls) =>
      if s.cancelled = true then
        some { s with
          workers := s.workers.set i (.sending (executeTask f calls id true).1)
          abandoned := s.abandoned + (if (executeTask f calls id true).2 then 1 else 0) }
      else none
    | _ => none
  | .workerSend i =>
    match s.workers[i]? with
    | some (.sending res) =>
      if s.stage2.length < poolSize ct then
        some { s with workers := s.workers.set i .idle, stage2 := s.stage2 ++ [res] }
      else none
    | _ => none
  | .workerCancel i =>
    match s.workers[i]? with
    | some (.sending _) =>
      if s.cancelled = true then
        some { s with workers := s.workers.set i .exited }
      else none
    | _ => none
  | .closerClose =>
    if s.stage2Closed = false ∧ s.workers.all Worker.isExited = true then
      some { s with stage2Closed := true }
    else none
  | _ => none

/-- The loop of `resultCollector` inside the pass: one iteration per action, by
`collectorStep`. `none` when the action cannot be taken. -/
def collector {ι : Type} [DecidableEq ι] (s : PassState ι) : Action → Option (PassState ι)
  | .collectorRecv =>
    match s.stage2 with
    | res :: rest =>
      if s.returned = false then
        some { s with stage2 := rest, failed := (collectorStep s.failed (.recv res)).1 }
      else none
    | [] => none
  | .collectorClosed =>
    if s.returned = false ∧ s.stage2 = [] ∧ s.stage2Closed = true then
      some { s with
        failed := (collectorStep s.failed .closed).1
        returned := (collectorStep s.failed .closed).2 }
    else none
  | .collectorCancel =>
    if s.returned = false ∧ s.cancelled = true then
      some { s with
        failed := (collectorStep s.failed .ctxDone).1
        returned := (collectorStep s.failed .ctxDone).2 }
    else none
  | _ => none

/-- The effect of an action on the pass, `none` when the goroutine cannot take it in
this state. -/
def step {ι : Type} [DecidableEq ι] (ct : ConcurrentTask) (f : testFunc ι) (prior : List ι)
    (s : PassState ι) : Action → Option (PassState ι)
  | .deadline => some { s with cancelled := true }
  | .invocationReturn =>
    if 0 < s.abandoned then some { s with abandoned := s.abandoned - 1 } else none
  | .walkerSend => idWalker ct s .walkerSend
  | .walkerCancel => idWalker ct s .walkerCancel
  | .walkerReturn => idWalker ct s .walkerReturn
  | .workerRecv i => testFuncRunner ct f prior s (.workerRecv i)
  | .workerExit i => testFuncRunner ct f prior s (.workerExit i)
  | .taskDone i => testFuncRunner ct f prior s (.taskDone i)
  | .taskCancel i => testFuncRunner ct f prior s (.taskCancel i)
  | .workerSend i => testFuncRunner ct f prior s (.workerSend i)
  | .workerCancel i => testFuncRunner ct f prior s (.workerCancel i)
  | .closerClose => testFuncRunner ct f prior s .closerClose
  | .collectorRecv => collector s .collectorRecv
  | .collectorClosed => collector s .collectorClosed
  | .collectorCancel => collector s .collectorCancel

/-- The machine run along a schedule; `none` when some action cannot be taken. -/
def exec {ι : Type} [DecidableEq ι] (ct : ConcurrentTask) (f : testFunc ι) (prior : List ι) :
    PassState ι → List Action → Option (PassState ι)
  | s, [] => some s
  | s, a :: rest =>
    match step ct f prior s a with
    | some s' => exec ct f prior s' rest
    | none => none

/-- The state in which the closure of `Run` builds the pipeline over `queue`:
`idWalker` has its loop before it, `testFuncRunner` has started `maxConcurrency`
workers, `resultCollector` has an empty `failed`. `cancelled` says whether the
deadline of the run has already fired, `abandoned` how many calls of `f` from earlier
passes are still running. -/
def initPass {ι : Type} (ct : ConcurrentTask) (queue : List ι) (cancelled : Bool)
    (abandoned : Nat) : PassState ι :=
  { pending := queue
    stage1 := []
    stage1Closed := false
    workers := List.replicate (poolSize ct) .idle
    stage2 := []
    stage2Closed := false
    failed := []
    returned := false
    cancelled := cancelled
    invoked := []
    abandoned := abandoned }

/-- The three stages of the closure of `Run` (`idWalker`, `testFuncRunner`,
`resultCollector`) along a schedule: the state in which `resultCollector` has
returned; `none` when a `make` of the stages panics, and when the schedule cannot be
run or stops before `resultCollector` returns. -/
def pipeline {ι : Type} [DecidableEq ι] (ct : ConcurrentTask) (f : testFunc ι)
    (prior : List ι) (queue : List ι) (cancelled : Bool) (abandoned : Nat)
    (sched : List Action) : Option (PassState ι) :=
  if makePanics ct then none
  else
    match exec ct f prior (initPass ct queue cancelled abandoned) sched with
    | some s => if s.returned = true then some s else none
    | none => none

/-! ## The retry loop -/

/-- What one execution of the retried closure did. -/
structure PassRecord (ι : Type) where
  /-- The value of `retryQueue` when the closure was entered. -/
  queue : List ι
  /-- The calls of `f` started by the pass, in start order. -/
  invoked : List ι
  /-- The slice `resultCollector` returned (empty when the closure stopped at its
  guard on an empty queue). -/
  failed : List ι
  /-- The deadline of the run had fired when the closure returned. -/
  cancelled : Bool
  deriving DecidableEq, Repr

/-- The variables the closure of `Run` works on, with a log of what happened. -/
structure RunState (ι : Type) where
  /-- The variable `retryQueue`. -/
  retryQueue : List ι
  /-- The channel `ctx.Done()` of the run is closed. -/
  cancelled : Bool
  /-- All calls of `f` started so far, in start order. -/
  invoked : List ι
  /-- The calls of `f` still running. -/
  inFlight : Nat
  /-- One record per execution of the closure, oldest first. -/
  trace : List (PassRecord ι)
  deriving DecidableEq, Repr

/-- The interleaving chosen for each execution of the closure, from the number of
earlier executions and the retry queue. -/
abbrev Scheduler (ι : Type) := Nat → List ι → List Action

/-- The function handed to `retry.Do`, in its `n`-th execution: whether it returns a
non-nil error, and the new state. `none` when it does not return: the pipeline panics,
or the schedule is not one of the pass. -/
def closure {ι : Type} [DecidableEq ι] (ct : ConcurrentTask) (f : testFunc ι)
    (sched : Scheduler ι) (n : Nat) (st : RunState ι) : Option (Bool × RunState ι) :=
  if st.retryQueue = [] then
    some (false, { st with
      trace := st.trace ++ [{ queue := [], invoked := [], failed := [],
                              cancelled := st.cancelled }] })
  else
    match pipeline ct f st.invoked st.retryQueue st.cancelled st.inFlight
        (sched n st.retryQueue) with
    | none => none
    | some s =>
      let st' : RunState ι :=
        { retryQueue := st.retryQueue
          cancelled := s.cancelled
          invoked := st.invoked ++ s.invoked
          inFlight := s.inFlight
          trace := st.trace ++ [{ queue := st.retryQueue, invoked := s.invoked,
                                  failed := s.failed, cancelled := s.cancelled }] }
      if s.failed = [] then some (false, st')
      else some (true, { st' with retryQueue := s.failed })

/-- The loop of `retry.Do` (`for n < config.attempts`) with `remaining` executions
left: the function is executed until it returns nil; when the attempts are used up the
collected errors are returned, a non-nil error. The result is whether the error is
non-nil, the number of executions, and the state. -/
def retryDo {σ : Type} (body : Nat → σ → Option (Bool × σ)) :
    (remaining : Nat) → (n : Nat) → σ → Option (Bool × Nat × σ)
  | 0, n, st => some (true, n, st)
  | remaining + 1, n, st =>
    match body n st with
    | none => none
    | some (false, st') => some (false, n + 1, st')
    | some (true, st') => retryDo body remaining (n + 1) st'

/-- The option `retry.Attempts(uint(ct.maxRetries))`. The conversion of an `int` to
`uint` keeps a non-negative value and wraps a negative one by `2^64`. -/
def attempts (ct : ConcurrentTask) : Nat :=
  if 0 ≤ ct.maxRetries then ct.maxRetries.toNat
  else (ct.maxRetries + 18446744073709551616).toNat

/-- What `Run` did. -/
structure RunResult (ι : Type) where
  /-- The call `t.Fatalf` was made: the run is reported as failed. -/
  fatal : Bool
  /-- The number of executions of the retried closure. -/
  attemptsUsed : Nat
  /-- The variable `retryQueue` at the end. -/
  retryQueue : List ι
  /-- All calls of `f`, in start order. -/
  invoked : List ι
  /-- One record per execution of the closure, oldest first. -/
  trace : List (PassRecord ι)
  /-- The deadline of the run fired. -/
  cancelled : Bool
  deriving DecidableEq, Repr

/-- `ConcurrentTask.Run`: `retry.Do` over the closure, then `t.Fatalf` if it returned
an error. `none` when `Run` does not return: a `make` of the pipeline panics, or the
scheduler gives a schedule that is not one of the pass. -/
def Run {ι : Type} [DecidableEq ι] (ct : ConcurrentTask) (ids : List ι) (f : testFunc ι)
    (sched : Scheduler ι) : Option (RunResult ι) :=
  match retryDo (closure ct f sched) (attempts ct) 0
      { retryQueue := ids, cancelled := false, invoked := [], inFlight := 0, trace := [] } with
  | none => none
  | some (err, n, st) =>
    some { fatal := err
           attemptsUsed := n
           retryQueue := st.retryQueue
           invoked := st.invoked
           trace := st.trace
           cancelled := st.cancelled }

/-! ## A scheduler under which every pass completes -/

/-- One identifier goes through the pipeline: sent by `idWalker`, taken by worker 0,
its `executeTask` returns, the result is sent and collected. -/
def fairItem : List Action :=
  [.walkerSend, .workerRecv 0, .taskDone 0, .workerSend 0, .collectorRecv]

/-- The identifiers go through the pipeline one after the other. -/
def fairItems : Nat → List Action
  | 0 => []
  | n + 1 => fairItem ++ fairItems n

/-- The workers `i, i+1, ..., i+k-1` return. -/
def exitAll (i : Nat) : Nat → List Action
  | 0 => []
  | k + 1 => .workerExit i :: exitAll (i + 1) k

/-- A schedule of a whole pass over a queue of `n` identifiers with `size` workers, in
which the deadline of the run does not fire. -/
def fairPass (n size : Nat) : List Action :=
  fairItems n ++ ([.walkerReturn] ++ (exitAll 0 size ++ [.closerClose, .collectorClosed]))

/-- The scheduler that runs every pass along `fairPass`. -/
def fairScheduler {ι : Type} (ct : ConcurrentTask) : Scheduler ι :=
  fun _ queue => fairPass queue.length (poolSize ct)

/-- The deadline of the run does not fire in any schedule the scheduler gives. -/
def NoDeadline {ι : Type} (sched : Scheduler ι) : Prop :=
  ∀ n queue, Action.deadline ∉ sched n queue

/-! ## Work functions and configurations of the scenarios -/

/-- A work function that returns an error on every call. -/
def alwaysFails {ι : Type} : testFunc ι := fun _ _ => .returns (some (.work 1))

/-- A work function that returns nil on every call. -/
def alwaysSucceeds {ι : Type} : testFunc ι := fun _ _ => .returns none

/-- A work function that never returns before the per-item deadline. -/
def alwaysHangs {ι : Type} : testFunc ι := fun _ _ => .hangs

/-- A work function that returns an error on the first `n id` calls on `id` and nil
afterwards. -/
def failsFirst {ι : Type} [DecidableEq ι] (n : ι → Nat) : testFunc ι := fun calls id =>
  if calls.count id < n id then .returns (some (.work 1)) else .returns none

/-- Only the identifier 3 fails, `n` times. -/
def onlyThree (n : Nat) : Nat → Nat := fun id => if id = 3 then n else 0

/-- A scheduler under which the deadline of the run fires at the start of the first
pass and `resultCollector` takes its cancellation case at once. -/
def deadlineFirst {ι : Type} : Scheduler ι := fun _ _ => [.deadline, .collectorCancel]

/-- A scheduler under which the first identifier goes through the pipeline, then the
deadline of the run fires and `resultCollector` takes its cancellation case. -/
def deadlineAfterOne {ι : Type} : Scheduler ι :=
  fun _ _ => fairItem ++ [.deadline, .collectorCancel]

/-! ## Invariants -/

/-- Nothing is invented: in every state of a pass, each identifier occurs in the
failed list, the channels and the workers together at most as often as in the queue. -/
structure Bounded {ι : Type} [DecidableEq ι] (ct : ConcurrentTask) (queue : List ι)
    (s : PassState ι) : Prop where
  size : s.workers.length = poolSize ct
  held : ∀ x, count x s.failed + count x (s.stage2.map (fun res => res.id))
      + count x (heldIds s.workers) + count x s.stage1 + count x s.pending ≤ count x queue
  calls : ∀ x, count x s.invoked + count x s.stage1 + count x s.pending ≤ count x queue

/-- The worker holds nothing that contradicts `E`: a call it waits for fails exactly
when `E` says so, and so does a result it holds. -/
def Worker.Agrees {ι : Type} (f : testFunc ι) (E : ι → Bool) : Worker ι → Prop
  | .running id calls => (f calls id).failed = E id
  | .sending res => res.err.isSome = E res.id
  | _ => True

/-- The state of a pass in which the deadline has not fired, when every call of the
pass on `x` fails exactly if `E x`: nothing is lost, and the failed list holds exactly
the collected identifiers with `E`. -/
structure Exact {ι : Type} [DecidableEq ι] (ct : ConcurrentTask) (f : testFunc ι) (E : ι → Bool)
    (queue : List ι) (s : PassState ι) : Prop where
  live : s.cancelled = false
  size : s.workers.length = poolSize ct
  closed1 : s.stage1Closed = true → s.pending = []
  exited : ∀ w ∈ s.workers, w = Worker.exited → s.stage1Closed = true ∧ s.stage1 = []
  closed2 : s.stage2Closed = true → ∀ w ∈ s.workers, w = Worker.exited
  done : s.returned = true → s.stage2Closed = true ∧ s.stage2 = []
  calls : ∀ x, count x s.invoked + count x s.stage1 + count x s.pending = count x queue
  agree2 : ∀ res ∈ s.stage2, res.err.isSome = E res.id
  agreeW : ∀ w ∈ s.workers, w.Agrees f E
  agreeF : ∀ x ∈ s.failed, E x = true
  counted : ∀ x, E x = true → count x s.failed + count x (s.stage2.map (fun res => res.id))
      + count x (heldIds s.workers) = count x s.invoked

/-- Every call the pass can make on an identifier of the queue fails exactly if `E`:
whatever calls `inv` the pass has started, as long as not all occurrences of `x` in the
queue have been called. -/
def Uniform {ι : Type} [DecidableEq ι] (f : testFunc ι) (prior queue : List ι)
    (E : ι → Bool) : Prop :=
  ∀ inv x, count x inv < count x queue → (f (prior ++ inv) x).failed = E x

/-- The records of the passes made so far shrink: each pass fails and invokes only
what its queue holds, each queue is the failed list of the pass before, and every
later queue lies within every earlier failed list. -/
structure Shrinking {ι : Type} (ids : List ι) (trace : List (PassRecord ι)) : Prop where
  each : ∀ rec ∈ trace, rec.failed.Subperm rec.queue ∧ rec.invoked.Subperm rec.queue
  chain : trace.Chain' (fun a b => b.queue = a.failed)
  first : ∀ rec, trace.head? = some rec → rec.queue = ids
  later : trace.Pairwise (fun a b => b.queue.Subperm a.failed)

/-- The state before an execution of the closure in a run over `ids`. -/
structure Retrying {ι : Type} (ids : List ι) (st : RunState ι) : Prop where
  shr : Shrinking ids st.trace
  start : st.trace = [] → st.retryQueue = ids
  last : ∀ rec, st.trace.getLast? = some rec → st.retryQueue = rec.failed
  below : ∀ rec ∈ st.trace, st.retryQueue.Subperm rec.failed

/-- The deadline has not fired and no call of the pass outlives its `executeTask`. -/
structure Calm {ι : Type} (ab : Nat) (s : PassState ι) : Prop where
  live : s.cancelled = false
  kept : s.abandoned ≤ ab

/-- A schedule over the queue [1, 2] with one worker: both identifiers are sent, the
worker takes the first, its call hangs until the per-item deadline, the worker sends
the result and takes the second identifier. -/
def overlapSchedule : List Action :=
  [.walkerSend, .walkerSend, .workerRecv 0, .taskDone 0, .workerSend 0, .workerRecv 0]

/-- The state `overlapSchedule` leads to: worker 0 waits for the call on 2 while the
call on 1 is still running. -/
def overlapState : PassState Nat :=
  ⟨[], [], false, [Worker.running 2 [1]], [⟨1, some ctxErr⟩], false,
    [], false, false, [1, 2], 1⟩

/-- The result of the run over [1, 2, 3, 4, 5] where 3 fails twice, under the fair
scheduler. -/
def flakyResult : RunResult Nat :=
  ⟨false, 3, [3], [1, 2, 3, 4, 5, 3, 3],
    [⟨[1, 2, 3, 4, 5], [1, 2, 3, 4, 5], [3], false⟩, ⟨[3], [3], [3], false⟩,
      ⟨[3], [3], [], false⟩], false⟩

/-- The largest number of failing calls among the identifiers of a list, 0 for the
empty list. -/
def maxFailures {ι : Type} (n : ι → Nat) (ids : List ι) : Nat :=
  (ids.map n).foldr max 0

/-- The state before the `j`-th execution of the closure when the work function fails
on the first `n x` calls on `x`: the deadline has not fired, the queue holds the
identifiers that failed `j` times, each called `j` times so far. -/
def FailedSoFar {ι : Type} [DecidableEq ι] (n : ι → Nat) (ids : List ι) (j : Nat)
    (st : RunState ι) : Prop :=
  st.cancelled = false
  ∧ st.retryQueue.Perm (ids.filter (fun x => decide (j ≤ n x)))
  ∧ ∀ x ∈ st.retryQueue, count x st.invoked = j

/-! ## Progress of a pass -/

/-- What a worker still has to do, counted in actions. -/
def Worker.weight {ι : Type} : Worker ι → Nat
  | .idle => 1
  | .running _ _ => 5
  | .sending _ => 3
  | .exited => 0

/-- What the workers still have to do. -/
def workersWeight {ι : Type} : List (Worker ι) → Nat
  | [] => 0
  | w :: ws => w.weight + workersWeight ws

/-- A bound on the number of actions the goroutines of a pass can still take (the
firing of the deadline apart): every other action lowers it. -/
def PassState.fuel {ι : Type} (s : PassState ι) : Nat :=
  6 * s.pending.length + 5 * s.stage1.length + workersWeight s.workers + s.stage2.length
    + s.abandoned + (if s.stage1Closed then 0 else 1) + (if s.stage2Closed then 0 else 1)
    + (if s.returned then 0 else 1)

/-- The order in which the goroutines of a pass finish, as long as the deadline has
not fired: `idWalker` closes its channel after its last send, a worker returns only
from a closed and drained channel, the output is closed after the last worker, and
`resultCollector` returns from a closed and drained output; no identifier is lost on
the way to a call. -/
structure Orderly {ι : Type} [DecidableEq ι] (ct : ConcurrentTask) (queue : List ι)
    (s : PassState ι) : Prop where
  size : s.workers.length = poolSize ct
  closed1 : s.cancelled = false → s.stage1Closed = true → s.pending = []
  exited : s.cancelled = false → ∀ w ∈ s.workers, w = Worker.exited →
    s.stage1Closed = true ∧ s.stage1 = []
  closed2 : s.cancelled = false → s.stage2Closed = true → ∀ w ∈ s.workers, w = Worker.exited
  done : s.cancelled = false → s.returned = true → s.stage2Closed = true ∧ s.stage2 = []
  calls : s.cancelled = false →
    ∀ x, count x s.invoked + count x s.stage1 + count x s.pending = count x queue

/-! ## The calls of a pass and their results -/

/-- The identifiers of the calls of a log that fail, in start order: a call on `id`
made after `calls` fails when `f calls id` returns an error or hangs. The first
argument holds the calls started before the log. -/
def failedCalls {ι : Type} (f : testFunc ι) : List ι → List ι → List ι
  | _, [] => []
  | calls, id :: rest =>
    (if (f calls id).failed then [id] else []) ++ failedCalls f (calls ++ [id]) rest

/-- The identifier a worker will hand on as failed: the one of a call that fails, or of
a result with an error. -/
def Worker.failing {ι : Type} (f : testFunc ι) : Worker ι → List ι
  | .running id calls => if (f calls id).failed then [id] else []
  | .sending res => if res.err.isSome then [res.id] else []
  | _ => []

/-- The identifiers the workers will hand on as failed. -/
def failingHeld {ι : Type} (f : testFunc ι) : List (Worker ι) → List ι
  | [] => []
  | w :: ws => w.failing f ++ failingHeld f ws

/-- The call on `id` made after `calls` is one the pass started: the `k`-th of its
log `inv`, for some `k`. -/
def Started {ι : Type} (prior inv : List ι) (id : ι) (calls : List ι) : Prop :=
  ∃ k, inv[k]? = some id ∧ calls = prior ++ inv.take k

/-- The result is what `executeTask` returned for a call the pass started: the `k`-th
of its log, for some `k`; the cancellation case of the select can only have been taken
if the run is cancelled. -/
def Traced {ι : Type} (f : testFunc ι) (prior inv : List ι) (cancelled : Bool)
    (res : result ι) : Prop :=
  ∃ k cw, inv[k]? = some res.id
    ∧ res = (executeTask f (prior ++ inv.take k) res.id cw).1
    ∧ (cw = true → cancelled = true)

/-- What a worker holds comes from a call the pass started. -/
def Worker.Traced {ι : Type} (f : testFunc ι) (prior inv : List ι) (cancelled : Bool) :
    Worker ι → Prop
  | .running id calls => Started prior inv id calls
  | .sending res => CCTask.Traced f prior inv cancelled res
  | _ => True

/-- Every result of a pass is the result of `executeTask` for a call of `f` the pass
started, results never outnumber calls, and as long as the deadline has not fired the
failed list, the output and the workers hold exactly the identifiers of the calls that
fail. -/
structure Logged {ι : Type} [DecidableEq ι] (f : testFunc ι) (prior : List ι)
    (s : PassState ι) : Prop where
  counted : s.cancelled = false →
    ∀ x, count x s.failed + count x (failedIds s.stage2) + count x (failingHeld f s.workers)
      = count x (failedCalls f prior s.invoked)
  sparse : ∀ x, count x s.failed + count x (s.stage2.map (fun res => res.id))
      + count x (heldIds s.workers) ≤ count x s.invoked
  tracedOut : ∀ res ∈ s.stage2, Traced f prior s.invoked s.cancelled res
  tracedHeld : ∀ w ∈ s.workers, w.Traced f prior s.invoked s.cancelled

/-- The state in which the pass over [1] ends under the fair schedule with one worker
and a work function that hangs: 1 is on the failed list, its call is left running. -/
def hangState : PassState Nat :=
  ⟨[], [], true, [Worker.exited], [], true, [1], true, false, [1], 1⟩

theorem valid_apply (o : Opt) (ct : ConcurrentTask) (h : ct.Valid) : (o.apply ct).Valid := by
  obtain ⟨h1, h2, h3, h4⟩ := h
  cases o <;>
    simp only [Opt.apply, WithMaxConcurrency, WithMaxRetries, WithTaskTimeout,
      WithTestFuncTimeout] <;>
    split <;> simp_all [ConcurrentTask.Valid]

theorem valid_foldl (opts : List Opt) (ct : ConcurrentTask) (h : ct.Valid) :
    (opts.foldl (fun ct opt => opt.apply ct) ct).Valid := by
  induction opts generalizing ct with
  | nil => simpa using h
  | cons o rest ih => exact ih _ (valid_apply o ct h)

theorem valid_default (numCPU : Int) (h : 0 < numCPU) : (defaultTask numCPU).Valid := by
  refine ⟨h, ?_, ?_, ?_⟩ <;> simp [defaultTask, minute, second]

theorem lastPositive_cons (n : Int) (xs : List Int) (d : Int) :
    (lastPositive (n :: xs)).getD d = (lastPositive xs).getD (if 0 < n then n else d) := by
  unfold lastPositive
  by_cases hn : 0 < n
  · simp [List.filter_cons, hn, List.getLast?_cons]
  · simp [List.filter_cons, hn]

theorem foldl_fields (opts : List Opt) (ct : ConcurrentTask) :
    (opts.foldl (fun ct opt => opt.apply ct) ct).maxConcurrency
        = (lastPositive (maxConcurrencyArgs opts)).getD ct.maxConcurrency
    ∧ (opts.foldl (fun ct opt => opt.apply ct) ct).maxRetries
        = (lastPositive (maxRetriesArgs opts)).getD ct.maxRetries
    ∧ (opts.foldl (fun ct opt => opt.apply ct) ct).taskTimeout
        = (lastPositive (taskTimeoutArgs opts)).getD ct.taskTimeout
    ∧ (opts.foldl (fun ct opt => opt.apply ct) ct).funcTimeout
        = (lastPositive (testFuncTimeoutArgs opts)).getD ct.funcTimeout := by
  induction opts generalizing ct with
  | nil => simp [lastPositive, maxConcurrencyArgs, maxRetriesArgs, taskTimeoutArgs,
      testFuncTimeoutArgs]
  | cons o rest ih =>
    obtain ⟨h1, h2, h3, h4⟩ := ih (o.apply ct)
    simp only [List.foldl_cons]
    rw [h1, h2, h3, h4]
    cases o with
    | maxConcurrency n =>
      simp only [maxConcurrencyArgs, maxRetriesArgs, taskTimeoutArgs, testFuncTimeoutArgs,
        lastPositive_cons, Opt.apply, WithMaxConcurrency]
      by_cases hn : 0 < n <;> simp [hn]
    | maxRetries n =>
      simp only [maxConcurrencyArgs, maxRetriesArgs, taskTimeoutArgs, testFuncTimeoutArgs,
        lastPositive_cons, Opt.apply, WithMaxRetries]
      by_cases hn : 0 < n <;> simp [hn]
    | taskTimeout n =>
      simp only [maxConcurrencyArgs, maxRetriesArgs, taskTimeoutArgs, testFuncTimeoutArgs,
        lastPositive_cons, Opt.apply, WithTaskTimeout]
      by_cases hn : 0 < n <;> simp [hn]
    | testFuncTimeout n =>
      simp only [maxConcurrencyArgs, maxRetriesArgs, taskTimeoutArgs, testFuncTimeoutArgs,
        lastPositive_cons, Opt.apply, WithTestFuncTimeout]
      by_cases hn : 0 < n <;> simp [hn]

/-- C6, as the claim states it, fails: after `WithMaxRetries(5), WithMaxRetries(0)` the
last override of `maxRetries` is zero, yet the field holds 5, not the default 3. -/
theorem C6_counterexample :
    (maxRetriesArgs [Opt.maxRetries 5, Opt.maxRetries 0]).getLast? = some 0
    ∧ (NewConcurrentTask 8 [Opt.maxRetries 5, Opt.maxRetries 0]).maxRetries = 5
    ∧ (NewConcurrentTask 8 [Opt.maxRetries 5, Opt.maxRetries 0]).maxRetries ≠ 3 := by
  decide

/-- C6, amended: a zero or negative override leaves the field as it is. Each field of
the configuration built by `NewConcurrentTask` holds the last positive override given
for it, and its default (`runtime.NumCPU()`, 3, 10 minutes, 30 seconds) when no
positive override is given for it. -/
theorem C6_nonpositive_override_ignored (numCPU : Int) (opts : List Opt) :
    (NewConcurrentTask numCPU opts).maxConcurrency
        = (lastPositive (maxConcurrencyArgs opts)).getD numCPU
    ∧ (NewConcurrentTask numCPU opts).maxRetries
        = (lastPositive (maxRetriesArgs opts)).getD 3
    ∧ (NewConcurrentTask numCPU opts).taskTimeout
        = (lastPositive (taskTimeoutArgs opts)).getD (10 * minute)
    ∧ (NewConcurrentTask numCPU opts).funcTimeout
        = (lastPositive (testFuncTimeoutArgs opts)).getD (30 * second) :=
  foldl_fields opts (defaultTask numCPU)

/-- C7: with a positive `runtime.NumCPU()`, the configuration `NewConcurrentTask`
builds from any list of options has `maxConcurrency`, `maxRetries`, `taskTimeout` and
`funcTimeout` all positive, and each option keeps them positive. -/
theorem C7_configuration_valid (numCPU : Int) (opts : List Opt) (h : 0 < numCPU) :
    (NewConcurrentTask numCPU opts).Valid
    ∧ ∀ (o : Opt) (ct : ConcurrentTask), ct.Valid → (o.apply ct).Valid :=
  ⟨valid_foldl opts _ (valid_default numCPU h), valid_apply⟩

theorem C7_configuration_valid_witness :
    (0 : Int) < 4
    ∧ (NewConcurrentTask 4 [Opt.maxRetries 0, Opt.maxConcurrency (-3), Opt.taskTimeout 0,
        Opt.testFuncTimeout (-1), Opt.maxRetries 7]).Valid :=
  ⟨by decide, (C7_configuration_valid 4 _ (by decide)).1⟩

/-! ### The collector and the task invoker -/

theorem collectorLoop_recv {ι : Type} (outs : List (result ι)) (failed : List ι)
    (rest : List (CollectorEvent ι)) :
    collectorLoop failed (outs.map CollectorEvent.recv ++ rest)
      = collectorLoop (failed ++ failedIds outs) rest := by
  induction outs generalizing failed with
  | nil => simp [failedIds]
  | cons o os ih =>
    have step : collectorLoop failed (CollectorEvent.recv o :: (os.map CollectorEvent.recv ++ rest))
        = collectorLoop (if o.err.isSome then failed ++ [o.id] else failed)
            (os.map CollectorEvent.recv ++ rest) := rfl
    rw [List.map_cons, List.cons_append, step, ih]
    by_cases h : o.err.isSome = true <;> simp [failedIds, List.filter_cons, h]

/-- C10: `resultCollector` is an order-preserving filter. When the outcomes `outs`
arrive and the stream then closes, it returns the identifiers of the outcomes with a
non-nil error, in arrival order (a sublist of the arriving identifiers, nothing
reordered, merged or added). When the cancellation is taken after the first `k`
outcomes were read, it returns the same filter of those `k` outcomes. -/
theorem C10_collector_order_preserving_filter {ι : Type} (outs : List (result ι)) :
    resultCollector (outs.map CollectorEvent.recv ++ [CollectorEvent.closed])
      = some (failedIds outs)
    ∧ failedIds outs = (outs.filter (fun res => res.err ≠ none)).map (fun res => res.id)
    ∧ (failedIds outs).Sublist (outs.map (fun res => res.id))
    ∧ (∀ (k : Nat) (rest : List (CollectorEvent ι)),
        resultCollector ((outs.take k).map CollectorEvent.recv ++ CollectorEvent.ctxDone :: rest)
          = some (failedIds (outs.take k))) := by
  refine ⟨?_, ?_, ?_, ?_⟩
  · simp [resultCollector, collectorLoop_recv, collectorLoop, collectorStep]
  · unfold failedIds
    congr 1
    apply List.filter_congr
    intro res _
    cases res.err <;> simp
  · exact (List.filter_sublist _).map _
  · intro k rest
    rw [resultCollector, collectorLoop_recv]
    simp [collectorLoop, collectorStep]

/-! ### The pipeline -/

theorem executeTask_id {ι : Type} (f : testFunc ι) (calls : List ι) (id : ι) (c : Bool) :
    (executeTask f calls id c).1.id = id := by
  unfold executeTask
  split <;> rfl

theorem executeTask_failed {ι : Type} (f : testFunc ι) (calls : List ι) (id : ι) :
    (executeTask f calls id false).1.err.isSome = (f calls id).failed := by
  cases h : f calls id <;> simp [executeTask, h, WorkOutcome.failed]

theorem executeTask_left {ι : Type} (f : testFunc ι) (calls : List ι) (id : ι) :
    (executeTask f calls id false).2 = true ↔ f calls id = WorkOutcome.hangs := by
  cases h : f calls id <;> simp [executeTask, h]

theorem heldIds_set_count {ι : Type} [DecidableEq ι] (ws : List (Worker ι)) (i : Nat)
    (w w' : Worker ι) (h : ws[i]? = some w) (x : ι) :
    count x (heldIds (ws.set i w')) + count x w.ids
      = count x (heldIds ws) + count x w'.ids := by
  induction ws generalizing i with
  | nil => simp at h
  | cons v vs ih =>
    cases i with
    | zero =>
      simp at h
      subst h
      simp [heldIds, count_append]
      omega
    | succ j =>
      simp at h
      have := ih j h
      simp [heldIds, count_append]
      omega

theorem exec_invariant {ι : Type} [DecidableEq ι] (ct : ConcurrentTask) (f : testFunc ι)
    (prior : List ι) (P : PassState ι → Prop)
    (hstep : ∀ s a s', P s → step ct f prior s a = some s' → P s')
    (sched : List Action) (s s' : PassState ι) (hs : P s)
    (h : exec ct f prior s sched = some s') : P s' := by
  induction sched generalizing s with
  | nil => simp [exec] at h; subst h; exact hs
  | cons a rest ih =>
    simp only [exec] at h
    split at h
    · next s1 h1 => exact ih s1 (hstep s a s1 hs h1) h
    · simp at h

theorem bounded_step {ι : Type} [DecidableEq ι] (ct : ConcurrentTask) (f : testFunc ι)
    (prior queue : List ι) (s : PassState ι) (a : Action) (s' : PassState ι)
    (hs : Bounded ct queue s) (h : step ct f prior s a = some s') : Bounded ct queue s' := by
  obtain ⟨h1, h2, h3⟩ := hs
  cases a <;> simp only [step, idWalker, testFuncRunner, collector] at h
  case deadline =>
    simp at h; subst h; exact ⟨h1, h2, h3⟩
  case walkerSend =>
    split at h
    · next id rest hp =>
      split at h
      · simp at h; subst h
        refine ⟨h1, fun x => ?_, fun x => ?_⟩
        · have := h2 x; simp [hp, count_append, count_cons] at this ⊢; omega
        · have := h3 x; simp [hp, count_append, count_cons] at this ⊢; omega
      · simp at h
    · simp at h
  case walkerCancel =>
    split at h
    · simp at h; subst h; exact ⟨h1, h2, h3⟩
    · simp at h
  case walkerReturn =>
    split at h
    · simp at h; subst h; exact ⟨h1, h2, h3⟩
    · simp at h
  case workerRecv i =>
    split at h
    · next id rest hw hst =>
      simp at h; subst h
      refine ⟨by simpa using h1, fun x => ?_, fun x => ?_⟩
      · have := h2 x
        have hc := heldIds_set_count s.workers i _ (Worker.running id (prior ++ s.invoked)) hw x
        simp [hst, count_cons, Worker.ids] at this hc ⊢; omega
      · have := h3 x; simp [hst, count_append, count_cons] at this ⊢; omega
    · simp at h
  case workerExit i =>
    split at h
    · next hw =>
      split at h
      · simp at h; subst h
        refine ⟨by simpa using h1, fun x => ?_, h3⟩
        have := h2 x
        have hc := heldIds_set_count s.workers i _ (Worker.exited) hw x
        simp [Worker.ids] at this hc ⊢; omega
      · simp at h
    · simp at h
  case taskDone i =>
    split at h
    · next id call hw =>
      simp at h; subst h
      refine ⟨by simpa using h1, fun x => ?_, h3⟩
      have := h2 x
      have hc := heldIds_set_count s.workers i _
        (Worker.sending (executeTask f call id false).1) hw x
      have hid := executeTask_id f call id false
      simp [Worker.ids, hid] at this hc ⊢; omega
    · simp at h
  case taskCancel i =>
    split at h
    · next id call hw =>
      split at h
      · simp at h; subst h
        refine ⟨by simpa using h1, fun x => ?_, h3⟩
        have := h2 x
        have hc := heldIds_set_count s.workers i _
          (Worker.sending (executeTask f call id true).1) hw x
        have hid := executeTask_id f call id true
        simp [Worker.ids, hid] at this hc ⊢; omega
      · simp at h
    · simp at h
  case workerSend i =>
    split at h
    · next res hw =>
      split at h
      · simp at h; subst h
        refine ⟨by simpa using h1, fun x => ?_, h3⟩
        have := h2 x
        have hc := heldIds_set_count s.workers i _ (Worker.idle) hw x
        simp [Worker.ids, count_append, count_cons] at this hc ⊢; omega
      · simp at h
    · simp at h
  case workerCancel i =>
    split at h
    · next res hw =>
      split at h
      · simp at h; subst h
        refine ⟨by simpa using h1, fun x => ?_, h3⟩
        have := h2 x
        have hc := heldIds_set_count s.workers i _ (Worker.exited) hw x
        simp [Worker.ids] at this hc ⊢; omega
      · simp at h
    · simp at h
  case invocationReturn =>
    split at h
    · simp at h; subst h; exact ⟨h1, h2, h3⟩
    · simp at h
  case closerClose =>
    split at h
    · simp at h; subst h; exact ⟨h1, h2, h3⟩
    · simp at h
  case collectorRecv =>
    split at h
    · next res rest hst =>
      split at h
      · simp at h; subst h
        refine ⟨h1, fun x => ?_, h3⟩
        have := h2 x
        simp only [collectorStep]
        split <;> simp [hst, count_append, count_cons] at this ⊢ <;> omega
      · simp at h
    · simp at h
  case collectorClosed =>
    split at h
    · simp at h; subst h; exact ⟨h1, h2, h3⟩
    · simp at h
  case collectorCancel =>
    split at h
    · simp at h; subst h; exact ⟨h1, h2, h3⟩
    · simp at h

theorem exact_step {ι : Type} [DecidableEq ι] (ct : ConcurrentTask) (f : testFunc ι)
    (prior queue : List ι) (E : ι → Bool) (hE : Uniform f prior queue E)
    (s : PassState ι) (a : Action) (s' : PassState ι)
    (hs : Exact ct f E queue s) (ha : a ≠ Action.deadline)
    (h : step ct f prior s a = some s') : Exact ct f E queue s' := by
  obtain ⟨live, size, closed1, exited, closed2, done, calls, agree2, agreeW, agreeF, counted⟩ := hs
  cases a <;> simp only [step, idWalker, testFuncRunner, collector] at h
  case deadline => exact absurd rfl ha
  case walkerSend =>
    split at h
    · next id rest hp =>
      split at h
      · next hg =>
        simp at h; subst h
        refine ⟨live, size, ?_, ?_, closed2, done, fun x => ?_, agree2, agreeW, agreeF, counted⟩
        · intro hc; simp [hg.1] at hc
        · intro w hw he
          have := (exited w hw he).1
          simp [hg.1] at this
        · have := calls x; simp [hp, count_append, count_cons] at this ⊢; omega
      · simp at h
    · simp at h
  case walkerCancel =>
    split at h
    · next hg => simp [live] at hg
    · simp at h
  case walkerReturn =>
    split at h
    · next hg =>
      simp at h; subst h
      refine ⟨live, size, fun _ => hg.2, ?_, closed2, done, calls, agree2, agreeW, agreeF, counted⟩
      intro w hw he
      exact ⟨rfl, (exited w hw he).2⟩
    · simp at h
  case workerRecv i =>
    split at h
    · next id rest hw hst =>
      simp at h; subst h
      have hmem := List.getElem?_mem hw
      refine ⟨live, by simpa using size, closed1, ?_, ?_, done, fun x => ?_, agree2, ?_, agreeF,
        fun x hx => ?_⟩
      · intro w hw' he
        rcases List.mem_or_eq_of_mem_set hw' with hold | hnew
        · have := (exited w hold he).2
          simp [hst] at this
        · subst hnew; simp at he
      · intro hc w _
        have := closed2 hc _ hmem
        simp at this
      · have := calls x; simp [hst, count_append, count_cons] at this ⊢; omega
      · intro w hw'
        rcases List.mem_or_eq_of_mem_set hw' with hold | hnew
        · exact agreeW w hold
        · subst hnew
          have hcq := calls id
          simp [hst, count_cons] at hcq
          exact hE s.invoked id (by omega)
      · have := counted x hx
        have hc := heldIds_set_count s.workers i _
          (Worker.running id (prior ++ s.invoked)) hw x
        simp [count_append, count_cons, Worker.ids] at this hc ⊢; omega
    · simp at h
  case workerExit i =>
    split at h
    · next hw =>
      split at h
      · next hg =>
        simp at h; subst h
        have hmem := List.getElem?_mem hw
        refine ⟨live, by simpa using size, closed1, ?_, ?_, done, calls, agree2, ?_, agreeF,
          fun x hx => ?_⟩
        · intro w _ _
          exact ⟨hg.2, hg.1⟩
        · intro hc w _
          have := closed2 hc _ hmem
          simp at this
        · intro w hw'
          rcases List.mem_or_eq_of_mem_set hw' with hold | hnew
          · exact agreeW w hold
          · subst hnew; simp [Worker.Agrees]
        · have := counted x hx
          have hc := heldIds_set_count s.workers i _ (Worker.exited) hw x
          simp [Worker.ids] at this hc ⊢; omega
      · simp at h
    · simp at h
  case taskDone i =>
    split at h
    · next id call hw =>
      simp at h; subst h
      have hmem := List.getElem?_mem hw
      have hid := executeTask_id f call id false
      refine ⟨live, by simpa using size, closed1, ?_, ?_, done, calls, agree2, ?_, agreeF,
        fun x hx => ?_⟩
      · intro w hw' he
        rcases List.mem_or_eq_of_mem_set hw' with hold | hnew
        · exact exited w hold he
        · subst hnew; simp at he
      · intro hc w _
        have := closed2 hc _ hmem
        simp at this
      · intro w hw'
        rcases List.mem_or_eq_of_mem_set hw' with hold | hnew
        · exact agreeW w hold
        · subst hnew
          have := agreeW _ hmem
          simp only [Worker.Agrees] at this ⊢
          rw [hid, ← this]
          exact executeTask_failed f call id
      · have := counted x hx
        have hc := heldIds_set_count s.workers i _
          (Worker.sending (executeTask f call id false).1) hw x
        simp [Worker.ids, hid] at this hc ⊢; omega
    · simp at h
  case taskCancel i =>
    split at h
    · split at h
      · next hg => simp [live] at hg
      · simp at h
    · simp at h
  case workerSend i =>
    split at h
    · next res hw =>
      split at h
      · simp at h; subst h
        have hmem := List.getElem?_mem hw
        refine ⟨live, by simpa using size, closed1, ?_, ?_, ?_, calls, ?_, ?_, agreeF,
          fun x hx => ?_⟩
        · intro w hw' he
          rcases List.mem_or_eq_of_mem_set hw' with hold | hnew
          · exact exited w hold he
          · subst hnew; simp at he
        · intro hc w _
          have := closed2 hc _ hmem
          simp at this
        · intro hr
          have := closed2 (done hr).1 _ hmem
          simp at this
        · intro r hr
          simp at hr
          rcases hr with hr | hr
          · exact agree2 r hr
          · subst hr; exact agreeW _ hmem
        · intro w hw'
          rcases List.mem_or_eq_of_mem_set hw' with hold | hnew
          · exact agreeW w hold
          · subst hnew; simp [Worker.Agrees]
        · have := counted x hx
          have hc := heldIds_set_count s.workers i _ (Worker.idle) hw x
          simp [Worker.ids, count_append, count_cons] at this hc ⊢; omega
      · simp at h
    · simp at h
  case workerCancel i =>
    split at h
    · split at h
      · next hg => simp [live] at hg
      · simp at h
    · simp at h
  case invocationReturn =>
    split at h
    · simp at h; subst h
      exact ⟨live, size, closed1, exited, closed2, done, calls, agree2, agreeW, agreeF, counted⟩
    · simp at h
  case closerClose =>
    split at h
    · next hg =>
      simp at h; subst h
      refine ⟨live, size, closed1, exited, ?_, ?_, calls, agree2, agreeW, agreeF, counted⟩
      · intro _ w hw
        have := (List.all_eq_true.mp hg.2) w hw
        cases w <;> simp [Worker.isExited] at this ⊢
      · intro hr
        have := (done hr).1
        simp [hg.1] at this
    · simp at h
  case collectorRecv =>
    split at h
    · next res rest hst =>
      split at h
      · next hg =>
        simp at h; subst h
        have hres := agree2 res (by simp [hst])
        refine ⟨live, size, closed1, exited, closed2, ?_, calls, ?_, agreeW, ?_,
          fun x hx => ?_⟩
        · intro hr; simp [hg] at hr
        · intro r hr; exact agree2 r (by simp [hst, hr])
        · intro x hx
          simp only [collectorStep] at hx
          split at hx
          · next he =>
            simp at hx
            rcases hx with hx | hx
            · exact agreeF x hx
            · subst hx; rw [← hres]; exact he
          · exact agreeF x hx
        · have := counted x hx
          simp only [collectorStep]
          split
          · simp [hst, count_append, count_cons] at this ⊢; omega
          · next he =>
            have hne : res.id ≠ x := by
              intro hx'; subst hx'; rw [hres] at he; exact he hx
            simp [hst, count_cons, hne] at this ⊢; omega
      · simp at h
    · simp at h
  case collectorClosed =>
    split at h
    · next hg =>
      simp at h; subst h
      exact ⟨live, size, closed1, exited, closed2, fun _ => ⟨hg.2.2, hg.2.1⟩, calls, agree2,
        agreeW, agreeF, counted⟩
    · simp at h
  case collectorCancel =>
    split at h
    · next hg => simp [live] at hg
    · simp at h

theorem heldIds_replicate_idle {ι : Type} (n : Nat) :
    heldIds (List.replicate n (Worker.idle : Worker ι)) = [] := by
  induction n with
  | zero => rfl
  | succ n ih => simp [List.replicate_succ, heldIds, Worker.ids, ih]

theorem heldIds_exited {ι : Type} (ws : List (Worker ι)) (h : ∀ w ∈ ws, w = Worker.exited) :
    heldIds ws = [] := by
  induction ws with
  | nil => rfl
  | cons w ws ih =>
    have hw := h w (by simp)
    subst hw
    simp [heldIds, Worker.ids]
    exact ih (fun v hv => h v (by simp [hv]))

theorem countP_running_exited {ι : Type} (ws : List (Worker ι))
    (h : ∀ w ∈ ws, w = Worker.exited) : ws.countP Worker.isRunning = 0 := by
  rw [List.countP_eq_zero]
  intro w hw
  rw [h w hw]
  simp [Worker.isRunning]

theorem bounded_init {ι : Type} [DecidableEq ι] (ct : ConcurrentTask) (queue : List ι)
    (c : Bool) (ab : Nat) : Bounded ct queue (initPass ct queue c ab) := by
  refine ⟨by simp [initPass], fun x => ?_, fun x => ?_⟩ <;>
    simp [initPass, heldIds_replicate_idle]

theorem exact_init {ι : Type} [DecidableEq ι] (ct : ConcurrentTask) (f : testFunc ι)
    (E : ι → Bool)
    (queue : List ι) (ab : Nat) : Exact ct f E queue (initPass ct queue false ab) := by
  refine ⟨rfl, by simp [initPass], ?_, ?_, ?_, ?_, fun x => ?_, ?_, ?_, ?_, fun x _ => ?_⟩ <;>
    simp [initPass, heldIds_replicate_idle, Worker.Agrees]

theorem exec_bounded {ι : Type} [DecidableEq ι] (ct : ConcurrentTask) (f : testFunc ι)
    (prior queue : List ι) (sched : List Action) (s s' : PassState ι)
    (hs : Bounded ct queue s) (h : exec ct f prior s sched = some s') : Bounded ct queue s' :=
  exec_invariant ct f prior (Bounded ct queue)
    (fun s a s' hs h => bounded_step ct f prior queue s a s' hs h) sched s s' hs h

theorem exec_exact {ι : Type} [DecidableEq ι] (ct : ConcurrentTask) (f : testFunc ι)
    (prior queue : List ι) (E : ι → Bool) (hE : Uniform f prior queue E)
    (sched : List Action) (hd : Action.deadline ∉ sched) (s s' : PassState ι)
    (hs : Exact ct f E queue s) (h : exec ct f prior s sched = some s') :
    Exact ct f E queue s' := by
  induction sched generalizing s with
  | nil => simp [exec] at h; subst h; exact hs
  | cons a rest ih =>
    simp only [exec] at h
    split at h
    · next s1 h1 =>
      have ha : a ≠ Action.deadline := fun e => hd (by simp [e])
      exact ih (fun hm => hd (by simp [hm])) s1
        (exact_step ct f prior queue E hE s a s1 hs ha h1) h
    · simp at h

theorem exact_final {ι : Type} [DecidableEq ι] (ct : ConcurrentTask) (f : testFunc ι)
    (E : ι → Bool)
    (queue : List ι) (s : PassState ι) (hpos : 0 < poolSize ct)
    (hs : Exact ct f E queue s) (hr : s.returned = true) :
    s.failed.Perm (queue.filter E) ∧ s.invoked.Perm queue ∧ s.cancelled = false
      ∧ s.inFlight = s.abandoned := by
  obtain ⟨live, size, closed1, exited, closed2, done, calls, agree2, agreeW, agreeF, counted⟩ := hs
  obtain ⟨hc2, hst2⟩ := done hr
  have hall := closed2 hc2
  have hheld := heldIds_exited s.workers hall
  obtain ⟨w, hw⟩ : ∃ w, w ∈ s.workers := by
    apply List.exists_mem_of_length_pos
    omega
  obtain ⟨hc1, hst1⟩ := exited w hw (hall w hw)
  have hp := closed1 hc1
  have hinv : ∀ x, count x s.invoked = count x queue := by
    intro x; have := calls x; simp [hst1, hp] at this; exact this
  refine ⟨?_, ?_, live, ?_⟩
  · rw [List.perm_iff_count]
    intro x
    by_cases hx : E x = true
    · have := counted x hx
      simp [hst2, hheld] at this
      rw [this, hinv x, List.count_filter hx]
    · have h1 : x ∉ s.failed := fun hm => hx (agreeF x hm)
      have h2 : x ∉ queue.filter E := by simp [hx]
      rw [List.count_eq_zero.mpr h1, List.count_eq_zero.mpr h2]
  · rw [List.perm_iff_count]; exact hinv
  · simp [PassState.inFlight, countP_running_exited s.workers hall]

theorem pipeline_some {ι : Type} [DecidableEq ι] (ct : ConcurrentTask) (f : testFunc ι)
    (prior queue : List ι) (c : Bool) (ab : Nat) (sched : List Action) (s : PassState ι)
    (h : pipeline ct f prior queue c ab sched = some s) :
    exec ct f prior (initPass ct queue c ab) sched = some s ∧ s.returned = true
      ∧ ¬ makePanics ct := by
  unfold pipeline at h
  split at h
  · simp at h
  · next hm =>
    split at h
    · next s1 h1 =>
      split at h
      · next hr => simp at h; subst h; exact ⟨h1, hr, hm⟩
      · simp at h
    · simp at h

theorem pipeline_bounded {ι : Type} [DecidableEq ι] (ct : ConcurrentTask) (f : testFunc ι)
    (prior queue : List ι) (c : Bool) (ab : Nat) (sched : List Action) (s : PassState ι)
    (h : pipeline ct f prior queue c ab sched = some s) :
    s.failed.Subperm queue ∧ s.invoked.Subperm queue := by
  have hb := exec_bounded ct f prior queue sched _ s (bounded_init ct queue c ab)
    (pipeline_some ct f prior queue c ab sched s h).1
  constructor
  · rw [List.subperm_ext_iff]
    intro x _
    have := hb.held x
    omega
  · rw [List.subperm_ext_iff]
    intro x _
    have := hb.calls x
    omega

theorem pipeline_exact {ι : Type} [DecidableEq ι] (ct : ConcurrentTask) (f : testFunc ι)
    (prior queue : List ι) (E : ι → Bool) (hE : Uniform f prior queue E)
    (hpos : 0 < poolSize ct) (ab : Nat) (sched : List Action)
    (hd : Action.deadline ∉ sched) (s : PassState ι)
    (h : pipeline ct f prior queue false ab sched = some s) :
    s.failed.Perm (queue.filter E) ∧ s.invoked.Perm queue ∧ s.cancelled = false
      ∧ s.inFlight = s.abandoned := by
  obtain ⟨he, hr, _⟩ := pipeline_some ct f prior queue false ab sched s h
  exact exact_final ct f E queue s hpos
    (exec_exact ct f prior queue E hE sched hd _ s (exact_init ct f E queue ab) he) hr

theorem closure_exact {ι : Type} [DecidableEq ι] (ct : ConcurrentTask) (f : testFunc ι)
    (sched : Scheduler ι) (E : ι → Bool) (n : Nat) (st : RunState ι)
    (hpos : 0 < ct.maxConcurrency) (hd : NoDeadline sched) (hc : st.cancelled = false)
    (hE : Uniform f st.invoked st.retryQueue E)
    (err : Bool) (st' : RunState ι) (h : closure ct f sched n st = some (err, st')) :
    ∃ inv failed,
      inv.Perm st.retryQueue ∧ failed.Perm (st.retryQueue.filter E)
      ∧ st'.cancelled = false
      ∧ st'.invoked = st.invoked ++ inv
      ∧ st'.trace = st.trace ++ [⟨st.retryQueue, inv, failed, false⟩]
      ∧ err = !failed.isEmpty
      ∧ st'.retryQueue = if failed.isEmpty then st.retryQueue else failed := by
  unfold closure at h
  split at h
  · next hq =>
    simp at h
    obtain ⟨he, hst⟩ := h
    subst he hst
    exact ⟨[], [], by simp [hq], by simp [hq], hc, by simp, by simp [hq, hc], by simp,
      by simp⟩
  · next hq =>
    split at h
    · simp at h
    · next s hp =>
      rw [hc] at hp
      have hpool : 0 < poolSize ct := by unfold poolSize; omega
      obtain ⟨h1, h2, h3, _⟩ := pipeline_exact ct f st.invoked st.retryQueue E hE hpool
        st.inFlight (sched n st.retryQueue) (hd n st.retryQueue) s hp
      refine ⟨s.invoked, s.failed, h2, h1, ?_⟩
      simp only at h
      split at h
      · next hf =>
        simp at h
        obtain ⟨he, hst⟩ := h
        subst he hst
        simp [hf, h3]
      · next hf =>
        simp at h
        obtain ⟨he, hst⟩ := h
        subst he hst
        simp [hf, h3]

theorem attempts_pos (ct : ConcurrentTask) (h : 0 < ct.maxRetries) :
    attempts ct = ct.maxRetries.toNat ∧ 0 < attempts ct := by
  unfold attempts
  rw [if_pos (le_of_lt h)]
  exact ⟨rfl, by omega⟩

theorem closure_trace {ι : Type} [DecidableEq ι] (ct : ConcurrentTask) (f : testFunc ι)
    (sched : Scheduler ι) (n : Nat) (st : RunState ι) (err : Bool) (st' : RunState ι)
    (h : closure ct f sched n st = some (err, st')) :
    ∃ rec : PassRecord ι,
      st'.trace = st.trace ++ [rec] ∧ rec.queue = st.retryQueue
      ∧ rec.failed.Subperm rec.queue ∧ rec.invoked.Subperm rec.queue
      ∧ (err = true → st'.retryQueue = rec.failed)
      ∧ st'.invoked = st.invoked ++ rec.invoked := by
  unfold closure at h
  split at h
  · next hq =>
    simp at h
    obtain ⟨he, hst⟩ := h
    subst he hst
    exact ⟨⟨[], [], [], st.cancelled⟩, rfl, hq.symm, List.Subperm.refl _ |>.trans (by simp),
      by simp, by simp, by simp⟩
  · next hq =>
    split at h
    · simp at h
    · next s hp =>
      obtain ⟨h1, h2⟩ := pipeline_bounded ct f _ _ _ _ _ s hp
      refine ⟨⟨st.retryQueue, s.invoked, s.failed, s.cancelled⟩, ?_⟩
      simp only at h
      split at h
      · simp at h
        obtain ⟨he, hst⟩ := h
        subst he hst
        exact ⟨rfl, rfl, h1, h2, by simp, rfl⟩
      · simp at h
        obtain ⟨he, hst⟩ := h
        subst he hst
        exact ⟨rfl, rfl, h1, h2, by simp, rfl⟩

theorem retryDo_invariant {σ : Type} (body : Nat → σ → Option (Bool × σ)) (P Q : σ → Prop)
    (herr : ∀ n st st', P st → body n st = some (true, st') → P st')
    (hok : ∀ n st st', P st → body n st = some (false, st') → Q st')
    (hPQ : ∀ st, P st → Q st)
    (remaining n : Nat) (st : σ) (r : Bool × Nat × σ) (hP : P st)
    (h : retryDo body remaining n st = some r) : Q r.2.2 := by
  induction remaining generalizing n st with
  | zero => simp [retryDo] at h; subst h; exact hPQ st hP
  | succ k ih =>
    simp only [retryDo] at h
    split at h
    · simp at h
    · next st' hb => simp at h; subst h; exact hok n st st' hP hb
    · next st' hb => exact ih (n + 1) st' (herr n st st' hP hb) h

theorem shrinking_snoc {ι : Type} (ids : List ι) (st : RunState ι) (rec : PassRecord ι)
    (hs : Retrying ids st) (hq : rec.queue = st.retryQueue)
    (h1 : rec.failed.Subperm rec.queue) (h2 : rec.invoked.Subperm rec.queue) :
    Shrinking ids (st.trace ++ [rec]) := by
  obtain ⟨⟨each, chain, first, later⟩, start, last, below⟩ := hs
  refine ⟨?_, ?_, ?_, ?_⟩
  · intro r hr
    simp at hr
    rcases hr with hr | hr
    · exact each r hr
    · subst hr; exact ⟨h1, h2⟩
  · rw [List.chain'_append]
    refine ⟨chain, List.chain'_singleton _, ?_⟩
    intro x hx y hy
    simp at hy
    subst hy
    rw [hq]
    exact last x hx
  · intro r hr
    cases ht : st.trace with
    | nil =>
      simp [ht] at hr
      subst hr
      rw [hq]; exact start ht
    | cons a rest =>
      simp [ht] at hr
      subst hr
      exact first a (by simp [ht])
  · rw [List.pairwise_append]
    refine ⟨later, List.pairwise_singleton _ _, ?_⟩
    intro a ha b hb
    simp at hb
    subst hb
    rw [hq]
    exact below a ha

theorem run_shrinking {ι : Type} [DecidableEq ι] (ct : ConcurrentTask) (ids : List ι)
    (f : testFunc ι) (sched : Scheduler ι) (r : RunResult ι)
    (h : Run ct ids f sched = some r) : Shrinking ids r.trace := by
  unfold Run at h
  split at h
  · simp at h
  · next err n st hr =>
    simp at h
    subst h
    refine retryDo_invariant (closure ct f sched) (Retrying ids)
      (fun st => Shrinking ids st.trace) ?_ ?_ (fun st hs => hs.shr) (attempts ct) 0 _
      (err, n, st) ?_ hr
    · intro n st st' hP hb
      obtain ⟨rec, ht, hq, h1, h2, hrq, _⟩ := closure_trace ct f sched n st true st' hb
      have hsh := shrinking_snoc ids st rec hP hq h1 h2
      refine ⟨by rw [ht]; exact hsh, ?_, ?_, ?_⟩
      · intro he; simp [ht] at he
      · intro x hx
        rw [ht, List.getLast?_concat] at hx
        simp at hx
        subst hx
        exact hrq rfl
      · intro x hx
        rw [hrq rfl]
        rw [ht] at hx
        simp at hx
        rcases hx with hx | hx
        · exact h1.trans (hq ▸ hP.below x hx)
        · subst hx; exact List.Subperm.refl _
    · intro n st st' hP hb
      obtain ⟨rec, ht, hq, h1, h2, _, _⟩ := closure_trace ct f sched n st false st' hb
      rw [ht]
      exact shrinking_snoc ids st rec hP hq h1 h2
    · exact ⟨⟨by simp, by simp, by simp, by simp⟩, fun _ => rfl, by simp, by simp⟩

/-! ### Runs -/

theorem retryDo_all_fail {σ : Type} (body : Nat → σ → Option (Bool × σ)) (P : σ → Prop)
    (hbody : ∀ n st err st', P st → body n st = some (err, st') → err = true ∧ P st')
    (remaining n : Nat) (st : σ) (err : Bool) (m : Nat) (st' : σ) (hP : P st)
    (h : retryDo body remaining n st = some (err, m, st')) :
    err = true ∧ m = n + remaining ∧ P st' := by
  induction remaining generalizing n st with
  | zero =>
    simp [retryDo] at h
    obtain ⟨h1, h2, h3⟩ := h
    subst h1 h2 h3
    exact ⟨rfl, rfl, hP⟩
  | succ k ih =>
    simp only [retryDo] at h
    split at h
    · simp at h
    · next st1 hb => exact absurd (hbody n st false st1 hP hb).1 (by simp)
    · next st1 hb =>
      obtain ⟨h1, h2, h3⟩ := ih (n + 1) st1 (hbody n st true st1 hP hb).2 h
      exact ⟨h1, by omega, h3⟩

/-- When every call of the work function fails and the deadline does not fire, `Run`
reports failure after `maxRetries` executions of the closure, not `maxRetries + 1`,
with every identifier of the input in the retry queue. -/
theorem run_always_failing {ι : Type} [DecidableEq ι] (ct : ConcurrentTask) (ids : List ι)
    (f : testFunc ι) (sched : Scheduler ι) (r : RunResult ι) (hv : ct.Valid)
    (hne : ids ≠ []) (hf : ∀ calls x, (f calls x).failed = true) (hd : NoDeadline sched)
    (h : Run ct ids f sched = some r) :
    r.fatal = true ∧ (r.attemptsUsed : Int) = ct.maxRetries ∧ r.retryQueue.Perm ids := by
  unfold Run at h
  split at h
  · simp at h
  · next err n st hr =>
    simp at h
    subst h
    have key := retryDo_all_fail (closure ct f sched)
      (fun st => st.cancelled = false ∧ st.retryQueue.Perm ids) ?_ (attempts ct) 0 _ err n st
      ⟨rfl, List.Perm.refl _⟩ hr
    · obtain ⟨h1, h2, _, h4⟩ := key
      refine ⟨h1, ?_, h4⟩
      simp only [h2, (attempts_pos ct hv.2.1).1]
      have := hv.2.1
      omega
    · intro n st err st' hP hb
      obtain ⟨hc, hq⟩ := hP
      obtain ⟨inv, failed, _, hfl, hc', _, _, herr, hrq⟩ :=
        closure_exact ct f sched (fun _ => true) n st hv.1 hd hc (fun inv x _ => hf _ x)
          err st' hb
      simp at hfl
      have hne' : failed ≠ [] := by
        intro he
        subst he
        exact hne (hfl.trans hq).symm.eq_nil
      have hemp : failed.isEmpty = false := by
        cases failed with
        | nil => exact absurd rfl hne'
        | cons a l => rfl
      rw [hemp] at herr hrq
      simp at herr hrq
      exact ⟨herr, hc', hrq ▸ hfl.trans hq⟩

/-- C1, at the scenario of the claim: items [1,2], a work function that always fails,
`maxRetries = 2`. `Run` reports failure with both identifiers in the retry queue, but
after 2 passes, where the claim says `maxRetries + 1 = 3`: under the fair scheduler,
and under every scheduler in which the deadline does not fire. -/
theorem C1_two_passes_not_three :
    (NewConcurrentTask 8 [Opt.maxRetries 2]).maxRetries = 2
    ∧ (Run (NewConcurrentTask 8 [Opt.maxRetries 2]) [1, 2] (alwaysFails : testFunc Nat)
        (fairScheduler (NewConcurrentTask 8 [Opt.maxRetries 2]))).map
          (fun r => (r.fatal, r.retryQueue, r.attemptsUsed)) = some (true, [1, 2], 2)
    ∧ ∀ (sched : Scheduler Nat) (r : RunResult Nat), NoDeadline sched →
        Run (NewConcurrentTask 8 [Opt.maxRetries 2]) [1, 2] alwaysFails sched = some r →
        r.fatal = true ∧ r.attemptsUsed = 2 ∧ r.retryQueue.Perm [1, 2] := by
  refine ⟨by decide, by decide, ?_⟩
  intro sched r hd h
  have := run_always_failing (NewConcurrentTask 8 [Opt.maxRetries 2]) [1, 2] alwaysFails
    sched r (by decide) (by decide) (fun _ _ => rfl) hd h
  refine ⟨this.1, ?_, this.2.2⟩
  have h2 := this.2.1
  have h3 : (NewConcurrentTask 8 [Opt.maxRetries 2]).maxRetries = 2 := by decide
  rw [h3] at h2
  exact_mod_cast h2

/-- C8: in every run, whatever the schedule and the work function, each pass puts on
its failed list only identifiers of its retry queue, each at most as often as it
occurs there, and calls the work function only on such identifiers; the queue of each
pass is the failed list of the pass before it and the first queue is the input. Hence
a later queue is never longer than an earlier one, and an identifier that a pass did
not put on its failed list is not called in any later pass. -/
theorem C8_monotone_shrink {ι : Type} [DecidableEq ι] (ct : ConcurrentTask) (ids : List ι)
    (f : testFunc ι) (sched : Scheduler ι) (r : RunResult ι)
    (h : Run ct ids f sched = some r) :
    (∀ rec ∈ r.trace, rec.failed.Subperm rec.queue ∧ rec.failed.length ≤ rec.queue.length
        ∧ rec.invoked.Subperm rec.queue)
    ∧ r.trace.Chain' (fun a b => b.queue = a.failed)
    ∧ (∀ rec, r.trace.head? = some rec → rec.queue = ids)
    ∧ r.trace.Pairwise (fun a b => b.queue.Subperm a.queue ∧ b.queue.length ≤ a.queue.length
        ∧ ∀ x, x ∉ a.failed → x ∉ b.invoked) := by
  have hs := run_shrinking ct ids f sched r h
  refine ⟨fun rec hrec => ?_, hs.chain, hs.first, ?_⟩
  · exact ⟨(hs.each rec hrec).1, (hs.each rec hrec).1.length_le, (hs.each rec hrec).2⟩
  · have hp : r.trace.Pairwise (fun a b => (a ∈ r.trace ∧ b ∈ r.trace)
        ∧ b.queue.Subperm a.failed) := by
      rw [List.pairwise_and_iff]
      exact ⟨List.pairwise_of_forall_mem_list (fun a ha b hb => ⟨ha, hb⟩), hs.later⟩
    refine hp.imp ?_
    intro a b hab
    obtain ⟨⟨ha, hb⟩, hq⟩ := hab
    have hqa := hq.trans (hs.each a ha).1
    refine ⟨hqa, hqa.length_le, fun x hx hxi => hx ?_⟩
    exact hq.subset ((hs.each b hb).2.subset hxi)

theorem C8_monotone_shrink_witness :
    Run (NewConcurrentTask 2 []) [1, 2, 3, 4, 5] (failsFirst (onlyThree 2))
        (fairScheduler (NewConcurrentTask 2 [])) = some flakyResult
    ∧ List.Chain' (fun a b : PassRecord Nat => b.queue = a.failed) flakyResult.trace :=
  ⟨by decide,
    (C8_monotone_shrink (NewConcurrentTask 2 []) [1, 2, 3, 4, 5] (failsFirst (onlyThree 2))
      (fairScheduler (NewConcurrentTask 2 [])) flakyResult (by decide)).2.1⟩

theorem le_maxFailures {ι : Type} (n : ι → Nat) (ids : List ι) (x : ι) (hx : x ∈ ids) :
    n x ≤ maxFailures n ids := by
  induction ids with
  | nil => simp at hx
  | cons a rest ih =>
    simp only [maxFailures, List.map_cons, List.foldr_cons] at ih ⊢
    rcases List.mem_cons.mp hx with h | h
    · subst h; exact le_max_left _ _
    · exact le_trans (ih h) (le_max_right _ _)

theorem exists_lt_of_lt_maxFailures {ι : Type} (n : ι → Nat) (ids : List ι) (j : Nat)
    (h : j < maxFailures n ids) : ∃ x ∈ ids, j < n x := by
  induction ids with
  | nil => simp [maxFailures] at h
  | cons a rest ih =>
    simp only [maxFailures, List.map_cons, List.foldr_cons] at ih h
    rcases lt_max_iff.mp h with h1 | h1
    · exact ⟨a, by simp, h1⟩
    · obtain ⟨x, hx, hj⟩ := ih h1
      exact ⟨x, by simp [hx], hj⟩

theorem retryDo_succeeds_at {σ : Type} (body : Nat → σ → Option (Bool × σ))
    (P : Nat → σ → Prop) (N : Nat)
    (hbody : ∀ j st err st', P j st → j ≤ N → body j st = some (err, st') →
      (j < N → err = true ∧ P (j + 1) st') ∧ (j = N → err = false))
    (remaining j : Nat) (st : σ) (err : Bool) (m : Nat) (st' : σ) (hP : P j st)
    (hj : j ≤ N) (hrem : N + 1 ≤ j + remaining)
    (h : retryDo body remaining j st = some (err, m, st')) : err = false ∧ m = N + 1 := by
  induction remaining generalizing j st with
  | zero => omega
  | succ k ih =>
    simp only [retryDo] at h
    split at h
    · simp at h
    · next st1 hb =>
      simp at h
      obtain ⟨h1, h2, _⟩ := h
      subst h1 h2
      have := hbody j st false st1 hP hj hb
      have hjN : j = N := by
        by_contra hne
        have := (this.1 (by omega)).1
        simp at this
      exact ⟨rfl, by omega⟩
    · next st1 hb =>
      have := hbody j st true st1 hP hj hb
      have hjN : j < N := by
        by_contra hne
        have := this.2 (by omega)
        simp at this
      exact ih (j + 1) st1 (this.1 hjN).2 (by omega) (by omega) h

theorem closure_fails_first {ι : Type} [DecidableEq ι] (ct : ConcurrentTask) (ids : List ι)
    (f : testFunc ι) (n : ι → Nat) (sched : Scheduler ι) (hpos : 0 < ct.maxConcurrency)
    (hnd : ids.Nodup)
    (hf : ∀ calls x, (f calls x).failed = decide (count x calls < n x))
    (hd : NoDeadline sched) (j : Nat) (st : RunState ι) (err : Bool) (st' : RunState ι)
    (hP : FailedSoFar n ids j st) (_hj : j ≤ maxFailures n ids)
    (h : closure ct f sched j st = some (err, st')) :
    (j < maxFailures n ids → err = true ∧ FailedSoFar n ids (j + 1) st')
    ∧ (j = maxFailures n ids → err = false) := by
  obtain ⟨hc, hq, hcalls⟩ := hP
  have hqnd : st.retryQueue.Nodup := (hq.nodup_iff).mpr (hnd.filter _)
  have hU : Uniform f st.invoked st.retryQueue (fun x => decide (j < n x)) := by
    intro inv x hx
    have h1 := List.nodup_iff_count_le_one.mp hqnd x
    have hmem : x ∈ st.retryQueue := List.count_pos_iff.mp (by omega)
    have h2 := hcalls x hmem
    rw [hf, List.count_append, h2]
    have : count x inv = 0 := by omega
    simp [this]
  obtain ⟨inv, failed, hinv, hfl, hc', hi, _, herr, hrq⟩ :=
    closure_exact ct f sched _ j st hpos hd hc hU err st' h
  have hfl' : failed.Perm (ids.filter (fun x => decide (j + 1 ≤ n x))) := by
    refine hfl.trans ((hq.filter _).trans ?_)
    rw [List.filter_filter]
    apply List.Perm.of_eq
    apply List.filter_congr
    intro x _
    by_cases h1 : j < n x
    · have h2 : j ≤ n x := by omega
      have h3 : j + 1 ≤ n x := by omega
      simp [h1, h2, h3]
    · have h3 : ¬ (j + 1 ≤ n x) := by omega
      simp [h1, h3]
  constructor
  · intro hlt
    obtain ⟨x, hx, hjx⟩ := exists_lt_of_lt_maxFailures n ids j hlt
    have hxf : x ∈ failed := hfl'.mem_iff.mpr (by simp [hx]; omega)
    have hemp : failed.isEmpty = false := by
      cases failed with
      | nil => simp at hxf
      | cons a l => rfl
    rw [hemp] at herr hrq
    simp at herr hrq
    refine ⟨herr, hc', by rw [hrq]; exact hfl', ?_⟩
    intro y hy
    rw [hrq] at hy
    have hyq : y ∈ st.retryQueue := by
      have := hfl.mem_iff.mp hy
      exact (List.mem_filter.mp this).1
    rw [hi, List.count_append, hcalls y hyq, hinv.count_eq, List.count_eq_one_of_mem hqnd hyq]
  · intro heq
    have : failed = [] := by
      apply List.Perm.eq_nil
      refine hfl'.trans (List.Perm.of_eq ?_)
      rw [List.filter_eq_nil_iff]
      intro x hx
      have := le_maxFailures n ids x hx
      simp
      omega
    subst this
    simpa using herr

/-- When the identifiers are pairwise distinct, the work function fails on the first
`n x` calls on `x` and succeeds afterwards, and the largest `n x` is below
`maxRetries`, `Run` succeeds after exactly that many passes plus one, if the deadline
does not fire. -/
theorem run_fails_first {ι : Type} [DecidableEq ι] (ct : ConcurrentTask) (ids : List ι)
    (f : testFunc ι) (n : ι → Nat) (sched : Scheduler ι) (r : RunResult ι)
    (hv : ct.Valid) (hnd : ids.Nodup)
    (hf : ∀ calls x, (f calls x).failed = decide (count x calls < n x))
    (hb : (maxFailures n ids : Int) < ct.maxRetries) (hd : NoDeadline sched)
    (h : Run ct ids f sched = some r) :
    r.fatal = false ∧ r.attemptsUsed = maxFailures n ids + 1 := by
  unfold Run at h
  split at h
  · simp at h
  · next err m st hr =>
    simp at h
    subst h
    have hatt := (attempts_pos ct hv.2.1).1
    refine retryDo_succeeds_at (closure ct f sched) (FailedSoFar n ids) (maxFailures n ids)
      (fun j st err st' hP hj hb' =>
        closure_fails_first ct ids f n sched hv.1 hnd hf hd j st err st' hP hj hb')
      (attempts ct) 0 _ err m st ⟨rfl, by simp, by simp⟩ (Nat.zero_le _) ?_ hr
    rw [hatt]
    have := hv.2.1
    omega

theorem retryDo_fails_through {σ : Type} (body : Nat → σ → Option (Bool × σ))
    (P : Nat → σ → Prop) (A : Nat)
    (hbody : ∀ j st err st', P j st → j < A → body j st = some (err, st') →
      err = true ∧ P (j + 1) st')
    (remaining j : Nat) (st : σ) (err : Bool) (m : Nat) (st' : σ) (hP : P j st)
    (hrem : j + remaining = A)
    (h : retryDo body remaining j st = some (err, m, st')) :
    err = true ∧ m = A ∧ P A st' := by
  induction remaining generalizing j st with
  | zero =>
    simp [retryDo] at h
    obtain ⟨h1, h2, h3⟩ := h
    subst h1 h2 h3
    have : j = A := by omega
    subst this
    exact ⟨rfl, rfl, hP⟩
  | succ k ih =>
    simp only [retryDo] at h
    split at h
    · simp at h
    · next st1 hb => exact absurd (hbody j st false st1 hP (by omega) hb).1 (by simp)
    · next st1 hb =>
      exact ih (j + 1) st1 (hbody j st true st1 hP (by omega) hb).2 (by omega) h

/-- When the identifiers are pairwise distinct, the work function fails on the first
`n x` calls on `x`, and some identifier fails at least `maxRetries` times, `Run` reports
failure after `maxRetries` passes, if the deadline does not fire. -/
theorem run_fails_budget {ι : Type} [DecidableEq ι] (ct : ConcurrentTask) (ids : List ι)
    (f : testFunc ι) (n : ι → Nat) (sched : Scheduler ι) (r : RunResult ι)
    (hv : ct.Valid) (hnd : ids.Nodup)
    (hf : ∀ calls x, (f calls x).failed = decide (count x calls < n x))
    (hb : ct.maxRetries ≤ (maxFailures n ids : Int)) (hd : NoDeadline sched)
    (h : Run ct ids f sched = some r) :
    r.fatal = true ∧ (r.attemptsUsed : Int) = ct.maxRetries := by
  unfold Run at h
  split at h
  · simp at h
  · next err m st hr =>
    simp at h
    subst h
    have hatt := (attempts_pos ct hv.2.1).1
    have hle : attempts ct ≤ maxFailures n ids := by
      rw [hatt]; have := hv.2.1; omega
    obtain ⟨h1, h2, _⟩ := retryDo_fails_through (closure ct f sched) (FailedSoFar n ids)
      (attempts ct)
      (fun j st err st' hP hj hb' =>
        (closure_fails_first ct ids f n sched hv.1 hnd hf hd j st err st' hP (by omega) hb').1
          (by omega))
      (attempts ct) 0 _ err m st ⟨rfl, by simp, by simp⟩ (by omega) hr
    refine ⟨h1, ?_⟩
    simp only [h2, hatt]
    have := hv.2.1
    omega

theorem failsFirst_failed {ι : Type} [DecidableEq ι] (n : ι → Nat) (calls : List ι) (x : ι) :
    (failsFirst n calls x).failed = decide (count x calls < n x) := by
  unfold failsFirst
  by_cases h : count x calls < n x <;> simp [h, WorkOutcome.failed]

/-- The scenario of the spec: items [1,2,3,4,5], the work function fails only for 3 on
its first two calls, `maxRetries = 3`; whatever the schedule, `Run` succeeds after
exactly 3 passes when the deadline does not fire. -/
theorem run_fails_first_scenario (sched : Scheduler Nat) (r : RunResult Nat)
    (hd : NoDeadline sched)
    (h : Run (NewConcurrentTask 8 []) [1, 2, 3, 4, 5] (failsFirst (onlyThree 2)) sched = some r) :
    r.fatal = false ∧ r.attemptsUsed = 3 :=
  run_fails_first (NewConcurrentTask 8 []) [1, 2, 3, 4, 5] (failsFirst (onlyThree 2))
    (onlyThree 2) sched r (by decide) (by decide) (failsFirst_failed _) (by decide) hd h

/-- C3, at the input where the claim fails: items [1,2,3,4,5], the work function fails
only for 3 on its first three calls, `maxRetries = 3`. Here `n = 3 ≤ maxRetries`, and
the claim promises success after `n + 1 = 4` passes; `Run` reports failure after 3
passes, under the fair scheduler with 3 still in the retry queue, and under every
scheduler in which the deadline does not fire. At the scenario of the claim (3 fails
on its first two calls) `Run` succeeds after 3 passes. -/
theorem C3_no_fourth_pass :
    (NewConcurrentTask 8 []).maxRetries = 3
    ∧ (Run (NewConcurrentTask 8 []) [1, 2, 3, 4, 5] (failsFirst (onlyThree 3))
        (fairScheduler (NewConcurrentTask 8 []))).map
          (fun r => (r.fatal, r.attemptsUsed, r.retryQueue)) = some (true, 3, [3])
    ∧ (∀ (sched : Scheduler Nat) (r : RunResult Nat), NoDeadline sched →
        Run (NewConcurrentTask 8 []) [1, 2, 3, 4, 5] (failsFirst (onlyThree 3)) sched = some r →
        r.fatal = true ∧ r.attemptsUsed = 3)
    ∧ (Run (NewConcurrentTask 8 []) [1, 2, 3, 4, 5] (failsFirst (onlyThree 2))
        (fairScheduler (NewConcurrentTask 8 []))).map
          (fun r => (r.fatal, r.attemptsUsed)) = some (false, 3) := by
  refine ⟨by decide, by decide, ?_, by decide⟩
  intro sched r hd h
  have := run_fails_budget (NewConcurrentTask 8 []) [1, 2, 3, 4, 5] (failsFirst (onlyThree 3))
    (onlyThree 3) sched r (by decide) (by decide) (failsFirst_failed _) (by decide) hd h
  refine ⟨this.1, ?_⟩
  have h2 := this.2
  have h3 : (NewConcurrentTask 8 []).maxRetries = 3 := by decide
  rw [h3] at h2
  exact_mod_cast h2

theorem run_deadline_first {ι : Type} [DecidableEq ι] (ct : ConcurrentTask) (ids : List ι)
    (f : testFunc ι) (hr : 0 < ct.maxRetries) (hm : ¬ makePanics ct) (hne : ids ≠ []) :
    Run ct ids f deadlineFirst = some ⟨false, 1, ids, [], [⟨ids, [], [], true⟩], true⟩ := by
  obtain ⟨a, ha⟩ : ∃ a, attempts ct = a + 1 :=
    ⟨attempts ct - 1, by have := (attempts_pos ct hr).2; omega⟩
  have hp : pipeline ct f [] ids false 0 [Action.deadline, Action.collectorCancel]
      = some { initPass ct ids false 0 with cancelled := true, returned := true } := by
    simp [pipeline, hm, exec, step, collector, collectorStep, initPass]
  simp [Run, ha, retryDo, closure, hne, deadlineFirst, hp, initPass, PassState.inFlight]

/-- C4, at inputs where the claim fails: items [1,2] and the deadline of the run
fires while the first pass is running. When it fires after the first item was
processed successfully, the collector returns an empty failed list on `ctx.Done()`,
the closure returns nil and `Run` returns without `t.Fatalf`, although item 2 was never
processed. When it fires before any outcome is collected, `Run` reports success with
no call of the work function at all, also for a work function that always fails, and
so for every non-empty item list and every work function. -/
theorem C4_deadline_reported_as_success :
    (Run (NewConcurrentTask 8 []) [1, 2] (alwaysSucceeds : testFunc Nat) deadlineAfterOne).map
        (fun r => (r.fatal, r.cancelled, r.invoked, r.attemptsUsed))
          = some (false, true, [1], 1)
    ∧ (Run (NewConcurrentTask 8 []) [1, 2] (alwaysSucceeds : testFunc Nat) deadlineFirst).map
        (fun r => (r.fatal, r.cancelled, r.invoked, r.attemptsUsed)) = some (false, true, [], 1)
    ∧ (Run (NewConcurrentTask 8 []) [1, 2] (alwaysFails : testFunc Nat) deadlineFirst).map
        (fun r => (r.fatal, r.cancelled, r.invoked, r.attemptsUsed))
          = some (false, true, [], 1)
    ∧ ∀ (ids : List Nat) (f : testFunc Nat), ids ≠ [] →
        (Run (NewConcurrentTask 8 []) ids f deadlineFirst).map
          (fun r => (r.fatal, r.cancelled, r.invoked)) = some (false, true, []) := by
  refine ⟨by decide, by decide, by decide, ?_⟩
  intro ids f hne
  rw [run_deadline_first (NewConcurrentTask 8 []) ids f (by decide) (by decide) hne]
  rfl

/-! ### Concurrency of a pass -/

theorem calm_step {ι : Type} [DecidableEq ι] (ct : ConcurrentTask) (f : testFunc ι)
    (prior : List ι) (ab : Nat) (hf : ∀ calls x, f calls x ≠ WorkOutcome.hangs)
    (s : PassState ι) (a : Action) (s' : PassState ι)
    (hs : Calm ab s) (ha : a ≠ Action.deadline)
    (h : step ct f prior s a = some s') : Calm ab s' := by
  obtain ⟨live, kept⟩ := hs
  cases a <;> simp only [step, idWalker, testFuncRunner, collector] at h
  case deadline => exact absurd rfl ha
  case walkerSend =>
    split at h
    · split at h
      · simp at h; subst h; exact ⟨live, kept⟩
      · simp at h
    · simp at h
  case walkerCancel =>
    split at h
    · simp at h; subst h; exact ⟨live, kept⟩
    · simp at h
  case walkerReturn =>
    split at h
    · simp at h; subst h; exact ⟨live, kept⟩
    · simp at h
  case workerRecv i =>
    split at h
    · simp at h; subst h; exact ⟨live, kept⟩
    · simp at h
  case workerExit i =>
    split at h
    · split at h
      · simp at h; subst h; exact ⟨live, kept⟩
      · simp at h
    · simp at h
  case taskDone i =>
    split at h
    · next id calls hw =>
      simp at h; subst h
      have hc : (executeTask f calls id false).2 = false := by
        cases hb : (executeTask f calls id false).2
        · rfl
        · exact absurd ((executeTask_left f calls id).mp hb) (hf calls id)
      exact ⟨live, by simp [hc, kept]⟩
    · simp at h
  case taskCancel i =>
    split at h
    · split at h
      · next hg => simp [live] at hg
      · simp at h
    · simp at h
  case workerSend i =>
    split at h
    · split at h
      · simp at h; subst h; exact ⟨live, kept⟩
      · simp at h
    · simp at h
  case workerCancel i =>
    split at h
    · split at h
      · next hg => simp [live] at hg
      · simp at h
    · simp at h
  case invocationReturn =>
    split at h
    · simp at h; subst h
      exact ⟨live, by simp; omega⟩
    · simp at h
  case closerClose =>
    split at h
    · simp at h; subst h; exact ⟨live, kept⟩
    · simp at h
  case collectorRecv =>
    split at h
    · split at h
      · simp at h; subst h; exact ⟨live, kept⟩
      · simp at h
    · simp at h
  case collectorClosed =>
    split at h
    · simp at h; subst h; exact ⟨live, kept⟩
    · simp at h
  case collectorCancel =>
    split at h
    · next hg => simp [live] at hg
    · simp at h

theorem exec_calm {ι : Type} [DecidableEq ι] (ct : ConcurrentTask) (f : testFunc ι)
    (prior : List ι) (ab : Nat) (hf : ∀ calls x, f calls x ≠ WorkOutcome.hangs)
    (sched : List Action) (hd : Action.deadline ∉ sched) (s s' : PassState ι)
    (hs : Calm ab s) (h : exec ct f prior s sched = some s') : Calm ab s' := by
  induction sched generalizing s with
  | nil => simp [exec] at h; subst h; exact hs
  | cons a rest ih =>
    simp only [exec] at h
    split at h
    · next s1 h1 =>
      have ha : a ≠ Action.deadline := fun e => hd (by simp [e])
      exact ih (fun hm => hd (by simp [hm])) s1 (calm_step ct f prior ab hf s a s1 hs ha h1) h
    · simp at h

/-- C5, as the claim states it, fails: with `maxConcurrency = 1`, the queue [1, 2] and
a work function that does not return before the per-item deadline, a pass reaches a
state with two calls of the work function started and not returned. -/
theorem C5_counterexample :
    (NewConcurrentTask 1 []).maxConcurrency = 1
    ∧ (exec (NewConcurrentTask 1 []) (alwaysHangs : testFunc Nat) []
        (initPass (NewConcurrentTask 1 []) [1, 2] false 0) overlapSchedule).map
          PassState.inFlight = some 2 := by
  decide

/-- C5, amended: in every state a pass can reach, the number of calls of the work
function that a worker's `executeTask` is still waiting for never exceeds
`maxConcurrency`; the calls started and not returned exceed it by at most the number
of calls whose `executeTask` returned on its deadline or on the cancellation while
they were still running. On a pass in which the work function always returns before
the per-item deadline and the deadline of the run does not fire, no call is added to
those, so with none left over from before the started and not returned calls never
exceed `maxConcurrency`. -/
theorem C5_bounded_waiting_calls {ι : Type} [DecidableEq ι] (ct : ConcurrentTask)
    (f : testFunc ι) (prior queue : List ι) (c : Bool) (ab : Nat) (sched : List Action)
    (s : PassState ι) (hpos : 0 < ct.maxConcurrency)
    (h : exec ct f prior (initPass ct queue c ab) sched = some s) :
    ((s.workers.countP Worker.isRunning : Nat) : Int) ≤ ct.maxConcurrency
    ∧ (s.inFlight : Int) ≤ ct.maxConcurrency + s.abandoned
    ∧ ((∀ calls x, f calls x ≠ WorkOutcome.hangs) → c = false → Action.deadline ∉ sched →
        s.abandoned ≤ ab ∧ (s.inFlight : Int) ≤ ct.maxConcurrency + ab) := by
  have hb := exec_bounded ct f prior queue sched _ s (bounded_init ct queue c ab) h
  have hlen : s.workers.countP Worker.isRunning ≤ poolSize ct := by
    rw [← hb.size]; exact List.countP_le_length _
  have hpool : (poolSize ct : Int) = ct.maxConcurrency := by
    unfold poolSize; omega
  refine ⟨by omega, by simp only [PassState.inFlight]; omega, ?_⟩
  intro hf hc hd
  subst hc
  have hcalm := exec_calm ct f prior ab hf sched hd _ s ⟨rfl, le_refl _⟩ h
  have := hcalm.kept
  exact ⟨this, by simp only [PassState.inFlight]; omega⟩

theorem C5_bounded_waiting_calls_witness :
    (0 : Int) < (NewConcurrentTask 1 []).maxConcurrency
    ∧ exec (NewConcurrentTask 1 []) (alwaysHangs : testFunc Nat) []
        (initPass (NewConcurrentTask 1 []) [1, 2] false 0) overlapSchedule = some overlapState
    ∧ ((overlapState.workers.countP Worker.isRunning : Nat) : Int)
        ≤ (NewConcurrentTask 1 []).maxConcurrency
    ∧ (overlapState.inFlight : Int)
        ≤ (NewConcurrentTask 1 []).maxConcurrency + overlapState.abandoned :=
  ⟨by decide, by decide,
    (C5_bounded_waiting_calls (NewConcurrentTask 1 []) alwaysHangs [] [1, 2] false 0
      overlapSchedule overlapState (by decide) (by decide)).1,
    (C5_bounded_waiting_calls (NewConcurrentTask 1 []) alwaysHangs [] [1, 2] false 0
      overlapSchedule overlapState (by decide) (by decide)).2.1⟩


/-! ### Progress of a pass -/

theorem workersWeight_set {ι : Type} (ws : List (Worker ι)) (i : Nat) (w w' : Worker ι)
    (h : ws[i]? = some w) :
    workersWeight (ws.set i w') + w.weight = workersWeight ws + w'.weight := by
  induction ws generalizing i with
  | nil => simp at h
  | cons v vs ih =>
    cases i with
    | zero =>
      simp at h
      subst h
      simp [workersWeight]
      omega
    | succ j =>
      simp at h
      have := ih j h
      simp [workersWeight]
      omega

theorem workersWeight_replicate_idle {ι : Type} (n : Nat) :
    workersWeight (List.replicate n (Worker.idle : Worker ι)) = n := by
  induction n with
  | zero => rfl
  | succ n ih => simp [List.replicate_succ, workersWeight, Worker.weight, ih]; omega

theorem fuel_step {ι : Type} [DecidableEq ι] (ct : ConcurrentTask) (f : testFunc ι)
    (prior : List ι) (s : PassState ι) (a : Action) (s' : PassState ι)
    (ha : a ≠ Action.deadline) (h : step ct f prior s a = some s') : s'.fuel < s.fuel := by
  cases a <;> simp only [step, idWalker, testFuncRunner, collector] at h
  case deadline => exact absurd rfl ha
  case walkerSend =>
    split at h
    · next id rest hp =>
      split at h
      · simp at h; subst h
        simp [PassState.fuel, hp]; omega
      · simp at h
    · simp at h
  case walkerCancel =>
    split at h
    · next hg => simp at h; subst h; simp [PassState.fuel, hg.1]
    · simp at h
  case walkerReturn =>
    split at h
    · next hg => simp at h; subst h; simp [PassState.fuel, hg.1]
    · simp at h
  case workerRecv i =>
    split at h
    · next id rest hw hst =>
      simp at h; subst h
      have := workersWeight_set s.workers i _ (Worker.running id (prior ++ s.invoked)) hw
      simp [PassState.fuel, hst, Worker.weight] at this ⊢; omega
    · simp at h
  case workerExit i =>
    split at h
    · next hw =>
      split at h
      · simp at h; subst h
        have := workersWeight_set s.workers i _ (Worker.exited) hw
        simp [PassState.fuel, Worker.weight] at this ⊢; omega
      · simp at h
    · simp at h
  case taskDone i =>
    split at h
    · next id calls hw =>
      simp at h; subst h
      have := workersWeight_set s.workers i _
        (Worker.sending (executeTask f calls id false).1) hw
      simp only [PassState.fuel, Worker.weight] at this ⊢
      split <;> omega
    · simp at h
  case taskCancel i =>
    split at h
    · next id calls hw =>
      split at h
      · simp at h; subst h
        have := workersWeight_set s.workers i _
          (Worker.sending (executeTask f calls id true).1) hw
        simp only [PassState.fuel, Worker.weight] at this ⊢
        split <;> omega
      · simp at h
    · simp at h
  case workerSend i =>
    split at h
    · next res hw =>
      split at h
      · simp at h; subst h
        have := workersWeight_set s.workers i _ (Worker.idle) hw
        simp [PassState.fuel, Worker.weight] at this ⊢; omega
      · simp at h
    · simp at h
  case workerCancel i =>
    split at h
    · next res hw =>
      split at h
      · simp at h; subst h
        have := workersWeight_set s.workers i _ (Worker.exited) hw
        simp [PassState.fuel, Worker.weight] at this ⊢; omega
      · simp at h
    · simp at h
  case invocationReturn =>
    split at h
    · simp at h; subst h
      simp [PassState.fuel]; omega
    · simp at h
  case closerClose =>
    split at h
    · next hg => simp at h; subst h; simp [PassState.fuel, hg.1]
    · simp at h
  case collectorRecv =>
    split at h
    · next res rest hst =>
      split at h
      · simp at h; subst h
        simp [PassState.fuel, hst]
      · simp at h
    · simp at h
  case collectorClosed =>
    split at h
    · next hg => simp at h; subst h; simp [PassState.fuel, hg.1, collectorStep]
    · simp at h
  case collectorCancel =>
    split at h
    · next hg => simp at h; subst h; simp [PassState.fuel, hg.1, collectorStep]
    · simp at h

theorem exec_fuel {ι : Type} [DecidableEq ι] (ct : ConcurrentTask) (f : testFunc ι)
    (prior : List ι) (sched : List Action) (s s' : PassState ι)
    (hd : Action.deadline ∉ sched) (h : exec ct f prior s sched = some s') :
    s'.fuel + sched.length ≤ s.fuel := by
  induction sched generalizing s with
  | nil => simp [exec] at h; subst h; simp
  | cons a rest ih =>
    simp only [exec] at h
    split at h
    · next s1 h1 =>
      have ha : a ≠ Action.deadline := fun e => hd (by simp [e])
      have h2 := fuel_step ct f prior s a s1 ha h1
      have h3 := ih s1 (fun hm => hd (by simp [hm])) h
      simp only [List.length_cons]
      omega
    · simp at h

theorem fuel_init {ι : Type} (ct : ConcurrentTask) (queue : List ι) (c : Bool) (ab : Nat) :
    (initPass ct queue c ab).fuel = 6 * queue.length + poolSize ct + ab + 3 := by
  simp [PassState.fuel, initPass, workersWeight_replicate_idle]

theorem orderly_init {ι : Type} [DecidableEq ι] (ct : ConcurrentTask) (queue : List ι)
    (c : Bool) (ab : Nat) : Orderly ct queue (initPass ct queue c ab) := by
  refine ⟨by simp [initPass], ?_, ?_, ?_, ?_, ?_⟩ <;> simp [initPass]

theorem orderly_step {ι : Type} [DecidableEq ι] (ct : ConcurrentTask) (f : testFunc ι)
    (prior queue : List ι) (s : PassState ι) (a : Action) (s' : PassState ι)
    (hs : Orderly ct queue s) (h : step ct f prior s a = some s') : Orderly ct queue s' := by
  obtain ⟨size, closed1, exited, closed2, done, calls⟩ := hs
  cases a <;> simp only [step, idWalker, testFuncRunner, collector] at h
  case deadline =>
    simp at h; subst h
    refine ⟨size, ?_, ?_, ?_, ?_, ?_⟩ <;> simp
  case walkerSend =>
    split at h
    · next id rest hp =>
      split at h
      · next hg =>
        simp at h; subst h
        refine ⟨size, ?_, ?_, closed2, done, fun hc x => ?_⟩
        · intro _ hc; simp [hg.1] at hc
        · intro hc w hw he
          have := (exited hc w hw he).1
          simp [hg.1] at this
        · have := calls hc x; simp [hp, count_append, count_cons] at this ⊢; omega
      · simp at h
    · simp at h
  case walkerCancel =>
    split at h
    · next hg =>
      simp at h; subst h
      refine ⟨size, ?_, ?_, ?_, ?_, ?_⟩ <;> simp [hg.2.2]
    · simp at h
  case walkerReturn =>
    split at h
    · next hg =>
      simp at h; subst h
      refine ⟨size, fun _ _ => hg.2, ?_, closed2, done, calls⟩
      intro hc w hw he
      exact ⟨rfl, (exited hc w hw he).2⟩
    · simp at h
  case workerRecv i =>
    split at h
    · next id rest hw hst =>
      simp at h; subst h
      have hmem := List.getElem?_mem hw
      refine ⟨by simpa using size, closed1, ?_, ?_, done, fun hc x => ?_⟩
      · intro hc w hw' he
        rcases List.mem_or_eq_of_mem_set hw' with hold | hnew
        · have := (exited hc w hold he).2
          simp [hst] at this
        · subst hnew; simp at he
      · intro hc hc2 w _
        have := closed2 hc hc2 _ hmem
        simp at this
      · have := calls hc x; simp [hst, count_append, count_cons] at this ⊢; omega
    · simp at h
  case workerExit i =>
    split at h
    · next hw =>
      split at h
      · next hg =>
        simp at h; subst h
        have hmem := List.getElem?_mem hw
        refine ⟨by simpa using size, closed1, ?_, ?_, done, calls⟩
        · intro _ w _ _
          exact ⟨hg.2, hg.1⟩
        · intro hc hc2 w _
          have := closed2 hc hc2 _ hmem
          simp at this
      · simp at h
    · simp at h
  case taskDone i =>
    split at h
    · next id call hw =>
      simp at h; subst h
      have hmem := List.getElem?_mem hw
      refine ⟨by simpa using size, closed1, ?_, ?_, done, calls⟩
      · intro hc w hw' he
        rcases List.mem_or_eq_of_mem_set hw' with hold | hnew
        · exact exited hc w hold he
        · subst hnew; simp at he
      · intro hc hc2 w _
        have := closed2 hc hc2 _ hmem
        simp at this
    · simp at h
  case taskCancel i =>
    split at h
    · split at h
      · next hg =>
        simp at h; subst h
        refine ⟨by simpa using size, ?_, ?_, ?_, ?_, ?_⟩ <;> simp [hg]
      · simp at h
    · simp at h
  case workerSend i =>
    split at h
    · next res hw =>
      split at h
      · simp at h; subst h
        have hmem := List.getElem?_mem hw
        refine ⟨by simpa using size, closed1, ?_, ?_, ?_, calls⟩
        · intro hc w hw' he
          rcases List.mem_or_eq_of_mem_set hw' with hold | hnew
          · exact exited hc w hold he
          · subst hnew; simp at he
        · intro hc hc2 w _
          have := closed2 hc hc2 _ hmem
          simp at this
        · intro hc hr
          have := closed2 hc (done hc hr).1 _ hmem
          simp at this
      · simp at h
    · simp at h
  case workerCancel i =>
    split at h
    · split at h
      · next hg =>
        simp at h; subst h
        refine ⟨by simpa using size, ?_, ?_, ?_, ?_, ?_⟩ <;> simp [hg]
      · simp at h
    · simp at h
  case invocationReturn =>
    split at h
    · simp at h; subst h
      exact ⟨size, closed1, exited, closed2, done, calls⟩
    · simp at h
  case closerClose =>
    split at h
    · next hg =>
      simp at h; subst h
      refine ⟨size, closed1, exited, ?_, ?_, calls⟩
      · intro _ _ w hw
        have := (List.all_eq_true.mp hg.2) w hw
        cases w <;> simp [Worker.isExited] at this ⊢
      · intro hc hr
        have := (done hc hr).1
        simp [hg.1] at this
    · simp at h
  case collectorRecv =>
    split at h
    · next res rest hst =>
      split at h
      · next hg =>
        simp at h; subst h
        refine ⟨size, closed1, exited, closed2, ?_, calls⟩
        intro _ hr; simp [hg] at hr
      · simp at h
    · simp at h
  case collectorClosed =>
    split at h
    · next hg =>
      simp at h; subst h
      exact ⟨size, closed1, exited, closed2, fun _ _ => ⟨hg.2.2, hg.2.1⟩, calls⟩
    · simp at h
  case collectorCancel =>
    split at h
    · next hg =>
      simp at h; subst h
      refine ⟨size, ?_, ?_, ?_, ?_, ?_⟩ <;> simp [hg.2]
    · simp at h

theorem exec_orderly {ι : Type} [DecidableEq ι] (ct : ConcurrentTask) (f : testFunc ι)
    (prior queue : List ι) (sched : List Action) (s s' : PassState ι)
    (hs : Orderly ct queue s) (h : exec ct f prior s sched = some s') : Orderly ct queue s' :=
  exec_invariant ct f prior (Orderly ct queue)
    (fun s a s' hs h => orderly_step ct f prior queue s a s' hs h) sched s s' hs h

theorem progress {ι : Type} [DecidableEq ι] (ct : ConcurrentTask) (f : testFunc ι)
    (prior queue : List ι) (s : PassState ι) (hs : Orderly ct queue s)
    (hr : s.returned = false) (hpool : 0 < poolSize ct) (hcap : 0 < stage1Cap ct) :
    ∃ a, a ≠ Action.deadline ∧ (step ct f prior s a).isSome = true := by
  by_cases hc : s.cancelled = true
  · exact ⟨Action.collectorCancel, by simp, by simp [step, collector, hr, hc]⟩
  have hc : s.cancelled = false := by simpa using hc
  cases hst2 : s.stage2 with
  | cons res rest =>
    exact ⟨Action.collectorRecv, by simp, by simp [step, collector, hst2, hr]⟩
  | nil =>
    by_cases hsend : ∃ res, Worker.sending res ∈ s.workers
    · obtain ⟨res, hmem⟩ := hsend
      obtain ⟨i, hi⟩ := List.getElem?_of_mem hmem
      exact ⟨Action.workerSend i, by simp, by simp [step, testFuncRunner, hi, hst2, hpool]⟩
    by_cases hrun : ∃ id calls, Worker.running id calls ∈ s.workers
    · obtain ⟨id, calls, hmem⟩ := hrun
      obtain ⟨i, hi⟩ := List.getElem?_of_mem hmem
      exact ⟨Action.taskDone i, by simp, by simp [step, testFuncRunner, hi]⟩
    have hrest : ∀ w ∈ s.workers, w = Worker.idle ∨ w = Worker.exited := by
      intro w hw
      cases w with
      | idle => exact Or.inl rfl
      | exited => exact Or.inr rfl
      | running id calls => exact absurd ⟨id, calls, hw⟩ hrun
      | sending res => exact absurd ⟨res, hw⟩ hsend
    cases hst1 : s.stage1 with
    | cons id rest =>
      obtain ⟨w, hw⟩ : ∃ w, w ∈ s.workers :=
        List.exists_mem_of_length_pos (by rw [hs.size]; exact hpool)
      have hidle : w = Worker.idle := by
        rcases hrest w hw with h | h
        · exact h
        · have := (hs.exited hc w hw h).2
          simp [hst1] at this
      subst hidle
      obtain ⟨i, hi⟩ := List.getElem?_of_mem hw
      exact ⟨Action.workerRecv i, by simp, by simp [step, testFuncRunner, hi, hst1]⟩
    | nil =>
      by_cases hcl : s.stage1Closed = true
      · by_cases hidle : Worker.idle ∈ s.workers
        · obtain ⟨i, hi⟩ := List.getElem?_of_mem hidle
          exact ⟨Action.workerExit i, by simp, by simp [step, testFuncRunner, hi, hst1, hcl]⟩
        · have hall : ∀ w ∈ s.workers, w = Worker.exited := by
            intro w hw
            rcases hrest w hw with h | h
            · subst h; exact absurd hw hidle
            · exact h
          by_cases hc2 : s.stage2Closed = true
          · exact ⟨Action.collectorClosed, by simp,
              by simp [step, collector, hr, hst2, hc2]⟩
          · have hc2 : s.stage2Closed = false := by simpa using hc2
            refine ⟨Action.closerClose, by simp, ?_⟩
            have : s.workers.all Worker.isExited = true := by
              rw [List.all_eq_true]
              intro w hw
              rw [hall w hw]; rfl
            simp [step, testFuncRunner, hc2, this]
      · have hcl : s.stage1Closed = false := by simpa using hcl
        cases hp : s.pending with
        | cons id rest =>
          exact ⟨Action.walkerSend, by simp, by simp [step, idWalker, hp, hcl, hst1, hcap]⟩
        | nil =>
          exact ⟨Action.walkerReturn, by simp, by simp [step, idWalker, hp, hcl]⟩

/-- A pass never gets stuck: from every state its goroutines can reach, they can go on,
without the deadline, until `resultCollector` has returned. -/
theorem completion {ι : Type} [DecidableEq ι] (ct : ConcurrentTask) (f : testFunc ι)
    (prior queue : List ι) (hpool : 0 < poolSize ct) (hcap : 0 < stage1Cap ct)
    (n : Nat) (s : PassState ι) (hn : s.fuel ≤ n) (hs : Orderly ct queue s) :
    ∃ rest s', Action.deadline ∉ rest ∧ exec ct f prior s rest = some s'
      ∧ s'.returned = true := by
  induction n generalizing s with
  | zero =>
    have hr : s.returned = true := by
      by_contra hr
      have hr : s.returned = false := by simpa using hr
      simp [PassState.fuel, hr] at hn
    exact ⟨[], s, by simp, rfl, hr⟩
  | succ n ih =>
    by_cases hr : s.returned = true
    · exact ⟨[], s, by simp, rfl, hr⟩
    have hr : s.returned = false := by simpa using hr
    obtain ⟨a, ha, hstep⟩ := progress ct f prior queue s hs hr hpool hcap
    obtain ⟨s1, h1⟩ := Option.isSome_iff_exists.mp hstep
    have hlt := fuel_step ct f prior s a s1 ha h1
    obtain ⟨rest, s', hd, he, hret⟩ := ih s1 (by omega)
      (orderly_step ct f prior queue s a s1 hs h1)
    refine ⟨a :: rest, s', ?_, ?_, hret⟩
    · simp only [List.mem_cons, not_or]
      exact ⟨fun e => ha e.symm, hd⟩
    · simp [exec, h1, he]

/-! ### The calls of a pass and their results -/

theorem failedCalls_concat {ι : Type} (f : testFunc ι) (prior inv : List ι) (x : ι) :
    failedCalls f prior (inv ++ [x])
      = failedCalls f prior inv ++ (if (f (prior ++ inv) x).failed then [x] else []) := by
  induction inv generalizing prior with
  | nil => simp [failedCalls]
  | cons a rest ih =>
    have h1 : failedCalls f prior (a :: rest ++ [x])
        = (if (f prior a).failed then [a] else []) ++ failedCalls f (prior ++ [a]) (rest ++ [x]) :=
      rfl
    have h2 : failedCalls f prior (a :: rest)
        = (if (f prior a).failed then [a] else []) ++ failedCalls f (prior ++ [a]) rest := rfl
    rw [h1, h2, ih, List.append_assoc, List.append_assoc, List.singleton_append]

theorem failingHeld_set_count {ι : Type} [DecidableEq ι] (f : testFunc ι)
    (ws : List (Worker ι)) (i : Nat) (w w' : Worker ι) (h : ws[i]? = some w) (x : ι) :
    count x (failingHeld f (ws.set i w')) + count x (w.failing f)
      = count x (failingHeld f ws) + count x (w'.failing f) := by
  induction ws generalizing i with
  | nil => simp at h
  | cons v vs ih =>
    cases i with
    | zero =>
      simp at h
      subst h
      simp [failingHeld, count_append]
      omega
    | succ j =>
      simp at h
      have := ih j h
      simp [failingHeld, count_append]
      omega

theorem failingHeld_replicate_idle {ι : Type} (f : testFunc ι) (n : Nat) :
    failingHeld f (List.replicate n (Worker.idle : Worker ι)) = [] := by
  induction n with
  | zero => rfl
  | succ n ih => simp [List.replicate_succ, failingHeld, Worker.failing, ih]

theorem failingHeld_exited {ι : Type} (f : testFunc ι) (ws : List (Worker ι))
    (h : ∀ w ∈ ws, w = Worker.exited) : failingHeld f ws = [] := by
  induction ws with
  | nil => rfl
  | cons w ws ih =>
    have hw := h w (by simp)
    subst hw
    simp [failingHeld, Worker.failing]
    exact ih (fun v hv => h v (by simp [hv]))

theorem getElem?_concat_of_some {α : Type} (l : List α) (a b : α) (k : Nat)
    (h : l[k]? = some a) : (l ++ [b])[k]? = some a ∧ (l ++ [b]).take k = l.take k := by
  have hk : k < l.length := by
    by_contra hk
    rw [List.getElem?_eq_none (by omega)] at h
    simp at h
  exact ⟨by rw [List.getElem?_append_left hk, h], List.take_append_of_le_length (by omega)⟩

theorem started_concat {ι : Type} (prior inv : List ι) (id : ι) (calls : List ι) (b : ι)
    (h : Started prior inv id calls) : Started prior (inv ++ [b]) id calls := by
  obtain ⟨k, hk, hc⟩ := h
  obtain ⟨h1, h2⟩ := getElem?_concat_of_some inv id b k hk
  exact ⟨k, h1, by rw [h2]; exact hc⟩

theorem traced_concat {ι : Type} (f : testFunc ι) (prior inv : List ι) (c : Bool)
    (res : result ι) (b : ι) (h : Traced f prior inv c res) :
    Traced f prior (inv ++ [b]) c res := by
  obtain ⟨k, cw, hk, hr, hc⟩ := h
  obtain ⟨h1, h2⟩ := getElem?_concat_of_some inv res.id b k hk
  exact ⟨k, cw, h1, by rw [h2]; exact hr, hc⟩

theorem traced_cancel {ι : Type} (f : testFunc ι) (prior inv : List ι) (c : Bool)
    (res : result ι) (h : Traced f prior inv c res) : Traced f prior inv true res := by
  obtain ⟨k, cw, hk, hr, _⟩ := h
  exact ⟨k, cw, hk, hr, fun _ => rfl⟩

theorem worker_traced_concat {ι : Type} (f : testFunc ι) (prior inv : List ι) (c : Bool)
    (w : Worker ι) (b : ι) (h : w.Traced f prior inv c) : w.Traced f prior (inv ++ [b]) c := by
  cases w with
  | idle => trivial
  | exited => trivial
  | running id calls => exact started_concat prior inv id calls b h
  | sending res => exact traced_concat f prior inv c res b h

theorem worker_traced_cancel {ι : Type} (f : testFunc ι) (prior inv : List ι) (c : Bool)
    (w : Worker ι) (h : w.Traced f prior inv c) : w.Traced f prior inv true := by
  cases w with
  | idle => trivial
  | exited => trivial
  | running id calls => exact h
  | sending res => exact traced_cancel f prior inv c res h

theorem logged_init {ι : Type} [DecidableEq ι] (ct : ConcurrentTask) (f : testFunc ι)
    (prior queue : List ι) (c : Bool) (ab : Nat) :
    Logged f prior (initPass ct queue c ab) := by
  refine ⟨fun _ x => ?_, fun x => ?_, ?_, ?_⟩
  · simp [initPass, failedIds, failingHeld_replicate_idle, failedCalls]
  · simp [initPass, heldIds_replicate_idle]
  · simp [initPass]
  · intro w hw
    simp [initPass] at hw
    rw [hw.2]; trivial

theorem logged_step {ι : Type} [DecidableEq ι] (ct : ConcurrentTask) (f : testFunc ι)
    (prior : List ι) (s : PassState ι) (a : Action) (s' : PassState ι)
    (hs : Logged f prior s) (h : step ct f prior s a = some s') : Logged f prior s' := by
  obtain ⟨counted, sparse, tracedOut, tracedHeld⟩ := hs
  have hset : ∀ (i : Nat) (w' : Worker ι) (inv : List ι) (c : Bool),
      (∀ w ∈ s.workers, w.Traced f prior inv c) → w'.Traced f prior inv c →
      ∀ w ∈ s.workers.set i w', w.Traced f prior inv c := by
    intro i w' inv c hall hw' w hw
    rcases List.mem_or_eq_of_mem_set hw with hold | hnew
    · exact hall w hold
    · subst hnew; exact hw'
  cases a <;> simp only [step, idWalker, testFuncRunner, collector] at h
  case deadline =>
    simp at h; subst h
    exact ⟨by simp, sparse, fun res hr => traced_cancel f prior _ _ res (tracedOut res hr),
      fun w hw => worker_traced_cancel f prior _ _ w (tracedHeld w hw)⟩
  case walkerSend =>
    split at h
    · split at h
      · simp at h; subst h; exact ⟨counted, sparse, tracedOut, tracedHeld⟩
      · simp at h
    · simp at h
  case walkerCancel =>
    split at h
    · simp at h; subst h; exact ⟨counted, sparse, tracedOut, tracedHeld⟩
    · simp at h
  case walkerReturn =>
    split at h
    · simp at h; subst h; exact ⟨counted, sparse, tracedOut, tracedHeld⟩
    · simp at h
  case workerRecv i =>
    split at h
    · next id rest hw hst =>
      simp at h; subst h
      refine ⟨fun hc x => ?_, fun x => ?_, ?_, ?_⟩
      · have := counted hc x
        have hcnt := failingHeld_set_count f s.workers i _
          (Worker.running id (prior ++ s.invoked)) hw x
        simp only [failedCalls_concat, count_append, Worker.failing] at this hcnt ⊢
        simp at hcnt
        omega
      · have := sparse x
        have hcnt := heldIds_set_count s.workers i _
          (Worker.running id (prior ++ s.invoked)) hw x
        simp [count_append, count_cons, Worker.ids] at this hcnt ⊢
        omega
      · intro res hr
        exact traced_concat f prior _ _ res id (tracedOut res hr)
      · refine hset i _ _ _ (fun w hw' => worker_traced_concat f prior _ _ w id
          (tracedHeld w hw')) ?_
        exact ⟨s.invoked.length, by simp, by simp⟩
    · simp at h
  case workerExit i =>
    split at h
    · next hw =>
      split at h
      · simp at h; subst h
        refine ⟨fun hc x => ?_, fun x => ?_, tracedOut, hset i _ _ _ tracedHeld trivial⟩
        · have := counted hc x
          have hcnt := failingHeld_set_count f s.workers i _ (Worker.exited) hw x
          simp [Worker.failing] at this hcnt ⊢
          omega
        · have := sparse x
          have hcnt := heldIds_set_count s.workers i _ (Worker.exited) hw x
          simp [Worker.ids] at this hcnt ⊢
          omega
      · simp at h
    · simp at h
  case taskDone i =>
    split at h
    · next id calls hw =>
      simp at h; subst h
      have hmem := List.getElem?_mem hw
      have hid := executeTask_id f calls id false
      have hfl := executeTask_failed f calls id
      refine ⟨fun hc x => ?_, fun x => ?_, tracedOut, hset i _ _ _ tracedHeld ?_⟩
      · have := counted hc x
        have hcnt := failingHeld_set_count f s.workers i _
          (Worker.sending (executeTask f calls id false).1) hw x
        simp only [Worker.failing, hid, hfl] at this hcnt ⊢
        omega
      · have := sparse x
        have hcnt := heldIds_set_count s.workers i _
          (Worker.sending (executeTask f calls id false).1) hw x
        simp [Worker.ids, hid] at this hcnt ⊢
        omega
      · obtain ⟨k, hk, hcalls⟩ := tracedHeld _ hmem
        refine ⟨k, false, by rw [hid]; exact hk, ?_, by simp⟩
        rw [hid, ← hcalls]
    · simp at h
  case taskCancel i =>
    split at h
    · next id calls hw =>
      split at h
      · next hg =>
        simp at h; subst h
        have hmem := List.getElem?_mem hw
        have hid := executeTask_id f calls id true
        refine ⟨by simp [hg], fun x => ?_, tracedOut, hset i _ _ _ tracedHeld ?_⟩
        · have := sparse x
          have hcnt := heldIds_set_count s.workers i _
            (Worker.sending (executeTask f calls id true).1) hw x
          simp [Worker.ids, hid] at this hcnt ⊢
          omega
        · obtain ⟨k, hk, hcalls⟩ := tracedHeld _ hmem
          refine ⟨k, true, by rw [hid]; exact hk, ?_, fun _ => hg⟩
          rw [hid, ← hcalls]
      · simp at h
    · simp at h
  case workerSend i =>
    split at h
    · next res hw =>
      split at h
      · simp at h; subst h
        have hmem := List.getElem?_mem hw
        refine ⟨fun hc x => ?_, fun x => ?_, ?_, hset i _ _ _ tracedHeld trivial⟩
        · have := counted hc x
          have hcnt := failingHeld_set_count f s.workers i _ (Worker.idle) hw x
          simp only [Worker.failing, failedIds, List.filter_append, List.map_append,
            count_append] at this hcnt ⊢
          by_cases he : res.err.isSome = true <;> simp [he] at hcnt ⊢ <;> omega
        · have := sparse x
          have hcnt := heldIds_set_count s.workers i _ (Worker.idle) hw x
          simp [Worker.ids, count_append, count_cons] at this hcnt ⊢
          omega
        · intro r hr
          simp at hr
          rcases hr with hr | hr
          · exact tracedOut r hr
          · subst hr; exact tracedHeld _ hmem
      · simp at h
    · simp at h
  case workerCancel i =>
    split at h
    · next res hw =>
      split at h
      · next hg =>
        simp at h; subst h
        refine ⟨by simp [hg], fun x => ?_, tracedOut, hset i _ _ _ tracedHeld trivial⟩
        have := sparse x
        have hcnt := heldIds_set_count s.workers i _ (Worker.exited) hw x
        simp [Worker.ids] at this hcnt ⊢
        omega
      · simp at h
    · simp at h
  case invocationReturn =>
    split at h
    · simp at h; subst h; exact ⟨counted, sparse, tracedOut, tracedHeld⟩
    · simp at h
  case closerClose =>
    split at h
    · simp at h; subst h; exact ⟨counted, sparse, tracedOut, tracedHeld⟩
    · simp at h
  case collectorRecv =>
    split at h
    · next res rest hst =>
      split at h
      · simp at h; subst h
        refine ⟨fun hc x => ?_, fun x => ?_, fun r hr => tracedOut r (by simp [hst, hr]),
          tracedHeld⟩
        · have := counted hc x
          simp only [collectorStep, failedIds, hst, List.filter_cons] at this ⊢
          by_cases he : res.err.isSome = true <;>
            simp [he, count_append, count_cons] at this ⊢ <;> omega
        · have := sparse x
          simp only [collectorStep, hst] at this ⊢
          by_cases he : res.err.isSome = true <;>
            simp [he, count_append, count_cons] at this ⊢ <;> omega
      · simp at h
    · simp at h
  case collectorClosed =>
    split at h
    · simp at h; subst h
      exact ⟨by simpa [collectorStep] using counted, by simpa [collectorStep] using sparse,
        tracedOut, tracedHeld⟩
    · simp at h
  case collectorCancel =>
    split at h
    · next hg =>
      simp at h; subst h
      exact ⟨by simp [hg.2], by simpa [collectorStep] using sparse, tracedOut, tracedHeld⟩
    · simp at h

theorem exec_logged {ι : Type} [DecidableEq ι] (ct : ConcurrentTask) (f : testFunc ι)
    (prior : List ι) (sched : List Action) (s s' : PassState ι)
    (hs : Logged f prior s) (h : exec ct f prior s sched = some s') : Logged f prior s' :=
  exec_invariant ct f prior (Logged f prior)
    (fun s a s' hs h => logged_step ct f prior s a s' hs h) sched s s' hs h

theorem mem_failedCalls {ι : Type} (f : testFunc ι) (prior inv : List ι) (k : Nat) (id : ι)
    (hk : inv[k]? = some id) (hf : (f (prior ++ inv.take k) id).failed = true) :
    id ∈ failedCalls f prior inv := by
  induction inv generalizing prior k with
  | nil => simp at hk
  | cons a rest ih =>
    cases k with
    | zero =>
      simp at hk
      subst hk
      simp at hf
      simp [failedCalls, hf]
    | succ j =>
      simp at hk
      have hf' : (f ((prior ++ [a]) ++ rest.take j) id).failed = true := by
        simpa using hf
      have := ih (prior ++ [a]) j hk hf'
      simp [failedCalls, this]

/-- A pass in which the deadline has not fired and `resultCollector` has returned has
called the work function exactly once per identifier of the queue, and its failed list
holds exactly the identifiers of the calls that failed. -/
theorem logged_final {ι : Type} [DecidableEq ι] (ct : ConcurrentTask) (f : testFunc ι)
    (prior queue : List ι) (s : PassState ι) (hpool : 0 < poolSize ct)
    (ho : Orderly ct queue s) (hl : Logged f prior s) (hc : s.cancelled = false)
    (hr : s.returned = true) :
    s.invoked.Perm queue ∧ s.failed.Perm (failedCalls f prior s.invoked) := by
  obtain ⟨hc2, hst2⟩ := ho.done hc hr
  have hall := ho.closed2 hc hc2
  obtain ⟨w, hw⟩ : ∃ w, w ∈ s.workers :=
    List.exists_mem_of_length_pos (by rw [ho.size]; exact hpool)
  obtain ⟨hc1, hst1⟩ := ho.exited hc w hw (hall w hw)
  have hp := ho.closed1 hc hc1
  constructor
  · rw [List.perm_iff_count]
    intro x
    have := ho.calls hc x
    simpa [hst1, hp] using this
  · rw [List.perm_iff_count]
    intro x
    have := hl.counted hc x
    simpa [hst2, failedIds, failingHeld_exited f s.workers hall] using this

/-- C9: `executeTask` returns one result for the call of the work function it starts:
its `id` is the identifier given, and its `err` is the value the call returned when
the call returns within `funcTimeout` and the cancellation does not win the race, and
the non-nil context error when the call hangs or the cancellation wins. In every state
a pass can reach, each result in the output or in the hands of a worker is the result
of `executeTask` for a call of the work function that the pass started, and the
results never outnumber the calls. When the deadline has not fired and
`resultCollector` has returned, every identifier of the queue was called exactly once,
the failed list holds exactly the identifiers of the calls that returned an error or
hung, so the identifier of every call that hung is counted as failed. No state is
stuck: with a positive pool whose channels can be made, the pass can always go on until
`resultCollector` returns, and without the deadline it takes at most
`6 * |queue| + maxConcurrency + abandoned + 3` actions. -/
theorem C9_executeTask_outcome {ι : Type} [DecidableEq ι] (ct : ConcurrentTask)
    (f : testFunc ι) (prior queue : List ι) (c : Bool) (ab : Nat) (sched : List Action)
    (s : PassState ι)
    (h : exec ct f prior (initPass ct queue c ab) sched = some s) :
    (∀ calls id cw,
        (executeTask f calls id cw).1.id = id
        ∧ (∀ err, cw = false → f calls id = WorkOutcome.returns err →
            (executeTask f calls id cw).1.err = err)
        ∧ (cw = true ∨ f calls id = WorkOutcome.hangs →
            (executeTask f calls id cw).1.err = some ctxErr)
        ∧ ((executeTask f calls id cw).1.err = none →
            cw = false ∧ f calls id = WorkOutcome.returns none))
    ∧ (∀ res, res ∈ s.stage2 ∨ Worker.sending res ∈ s.workers →
        Traced f prior s.invoked s.cancelled res)
    ∧ (∀ x, count x s.failed + count x (s.stage2.map (fun res => res.id))
        + count x (heldIds s.workers) ≤ count x s.invoked)
    ∧ (0 < ct.maxConcurrency → s.cancelled = false → s.returned = true →
        s.invoked.Perm queue ∧ s.failed.Perm (failedCalls f prior s.invoked)
        ∧ ∀ k id, s.invoked[k]? = some id →
            f (prior ++ s.invoked.take k) id = WorkOutcome.hangs → id ∈ s.failed)
    ∧ (0 < ct.maxConcurrency → 0 < stage1Size ct →
        ∃ rest s', Action.deadline ∉ rest ∧ exec ct f prior s rest = some s'
          ∧ s'.returned = true)
    ∧ (Action.deadline ∉ sched → sched.length ≤ 6 * queue.length + poolSize ct + ab + 3) := by
  have ho := exec_orderly ct f prior queue sched _ s (orderly_init ct queue c ab) h
  have hl := exec_logged ct f prior sched _ s (logged_init ct f prior queue c ab) h
  refine ⟨?_, ?_, hl.sparse, ?_, ?_, ?_⟩
  · intro calls id cw
    refine ⟨executeTask_id f calls id cw, ?_, ?_, ?_⟩
    · intro err hcw hf
      subst hcw
      simp [executeTask, hf]
    · intro hor
      cases cw with
      | true => simp [executeTask]
      | false =>
        rcases hor with hcw | hf
        · simp at hcw
        · simp [executeTask, hf]
    · intro hnone
      cases cw with
      | true => simp [executeTask] at hnone
      | false =>
        cases hf : f calls id with
        | hangs => simp [executeTask, hf] at hnone
        | returns err =>
          simp [executeTask, hf] at hnone
          simp [hnone]
  · intro res hres
    rcases hres with hres | hres
    · exact hl.tracedOut res hres
    · exact hl.tracedHeld _ hres
  · intro hpos hc hr
    have hpool : 0 < poolSize ct := by unfold poolSize; omega
    obtain ⟨h1, h2⟩ := logged_final ct f prior queue s hpool ho hl hc hr
    refine ⟨h1, h2, ?_⟩
    intro k id hk hf
    exact h2.mem_iff.mpr (mem_failedCalls f prior s.invoked k id hk
      (by simp [hf, WorkOutcome.failed]))
  · intro hpos hsize
    have hpool : 0 < poolSize ct := by unfold poolSize; omega
    have hcap : 0 < stage1Cap ct := by unfold stage1Cap; omega
    exact completion ct f prior queue hpool hcap s.fuel s (le_refl _) ho
  · intro hd
    have := exec_fuel ct f prior sched _ s hd h
    rw [fuel_init] at this
    omega

theorem C9_executeTask_outcome_witness :
    exec (NewConcurrentTask 1 []) (alwaysHangs : testFunc Nat) []
        (initPass (NewConcurrentTask 1 []) [1] false 0) (fairPass 1 1) = some hangState
    ∧ (0 < (NewConcurrentTask 1 []).maxConcurrency → hangState.cancelled = false →
        hangState.returned = true →
        hangState.invoked.Perm [1]
        ∧ hangState.failed.Perm (failedCalls alwaysHangs [] hangState.invoked)
        ∧ ∀ k id, hangState.invoked[k]? = some id →
            (alwaysHangs : testFunc Nat) ([] ++ hangState.invoked.take k) id = WorkOutcome.hangs →
            id ∈ hangState.failed) :=
  ⟨by decide,
    (C9_executeTask_outcome (NewConcurrentTask 1 []) alwaysHangs [] [1] false 0 (fairPass 1 1)
      hangState (by decide)).2.2.2.1⟩

end CCTask
